import Mathlib

/-!
# Flash descriptor layout dump: a shallow embedding of `src/ifd.cpp`

The firmware image (`bios_image`, `bios_size`) is a list of bytes; pointers into
the image are byte offsets from `bios_image`.  Every dereference goes through
`load_u32`, which reports `Fault.WildRead` when the four bytes are not inside
the image, so that memory safety of the source is a statement about the
embedding.  `bios_size` is an `int` in the source; the embedding takes it to be
the length of the byte list, which is what `open_rom_to_memory` stores for every
file whose size fits an `int`.

The header `ifd.h` is not part of the sources.  What the code needs from it is
kept apart: `MAX_REGIONS`, `sizeof_frba` and the fields of `region_t` follow the
specification, and the layout of `fdbar_t` is a parameter (`fdbar_layout`).

Two pieces of the C++ library are modelled: `std::list::sort`, after the
bottom-up merge sort of libstdc++ (`list_sort`), and the formatting state of
`std::cout` (`ostream`: the flags `basefield` and `showbase` and the text
written), with `operator<<` for `int` formatting like `printf`.
-/

namespace Ifd

/-! ## Data model -/

/-- Ways in which the core stops without a result.  `SignatureNotFound` is the
`return NULL` after the `printf` of `find_flash_descriptor`, `OutOfBounds` is a
`NULL` produced by a failed `PTR_IN_RANGE`, `InvalidRegionType` is the
`exit (EXIT_FAILURE)` of `get_region` and `region_name_short`.  `WildRead` is a
dereference outside the image (undefined behaviour in the source) and
`LoopFuel` is the scan loop running out of its iteration budget. -/
inductive Fault where
  | SignatureNotFound
  | OutOfBounds
  | InvalidRegionType
  | WildRead
  | LoopFuel
  deriving DecidableEq

/-- Equality of results is decidable, so that concrete runs can be evaluated. -/
instance instDecidableEqExcept {ε α : Type} [DecidableEq ε] [DecidableEq α] :
    DecidableEq (Except ε α)
  | .ok a, .ok b =>
    if h : a = b then isTrue (congrArg Except.ok h)
    else isFalse (fun h2 => h (Except.ok.inj h2))
  | .error a, .error b =>
    if h : a = b then isTrue (congrArg Except.error h)
    else isFalse (fun h2 => h (Except.error.inj h2))
  | .ok _, .error _ => isFalse (fun h => Except.noConfusion h)
  | .error _, .ok _ => isFalse (fun h => Except.noConfusion h)

/-- Modelled from the spec: the constant `MAX_REGIONS` of the absent `ifd.h`;
the region table has exactly 9 entries. -/
def MAX_REGIONS : Nat := 9

/-- Modelled from the spec: `sizeof (frba_t)` for the absent `ifd.h`; the region
table is the array `flreg[MAX_REGIONS]` of 32-bit words, 9 × 4 bytes. -/
def sizeof_frba : Nat := 4 * MAX_REGIONS

/-- The part of the absent declaration of `fdbar_t` that the code depends on:
the size of the structure and the byte offset of its field `flmap0`, a 32-bit
word lying inside the structure. -/
structure fdbar_layout where
  sizeof_fdbar : Nat
  offsetof_flmap0 : Nat
  flmap0_inside : offsetof_flmap0 + 4 ≤ sizeof_fdbar

/-- The header layout of coreboot's ifdtool (`flvalsig`, `flmap0`, `flmap1`,
`flmap2`), used for concrete evaluations only. -/
def ifdtool_fdbar : fdbar_layout := ⟨16, 4, by decide⟩

/-- Modelled from the spec: `region_t` of the absent `ifd.h`, with the signed
`int` fields `base`, `limit`, `size` (the source tests `region.size < 0`) and the
short name attached by `get_region`. -/
structure region_t where
  base : Int
  limit : Int
  size : Int
  name : String
  deriving DecidableEq

/-- The table `region_names` (lines 22-32): full name, short name. -/
def region_names : List (String × String) :=
  [("Flash Descriptor", "FD"),
   ("BIOS", "BIOS"),
   ("Intel ME", "ME"),
   ("GbE", "GbE"),
   ("Platform Data", "PD"),
   ("Reserved_1", "RES1"),
   ("Reserved_2", "RES2"),
   ("Reserved_3", "RES3"),
   ("EC", "EC")]

/-! ## Machine arithmetic -/

/-- Result of an `uint32_t` operation: reduction modulo `2^32`. -/
def u32 (n : Nat) : Nat := n % 2 ^ 32

/-- Conversion of an `uint32_t` value to `int` (two's complement). -/
def to_int (u : Nat) : Int := if u < 2 ^ 31 then (u : Int) else (u : Int) - 2 ^ 32

/-- Result of an `int` operation, wrapped into the 32-bit two's complement
range. -/
def wrap_int (z : Int) : Int := (z + 2 ^ 31) % 2 ^ 32 - 2 ^ 31

/-! ## Memory access -/

/-- The byte of the image at offset `off` as a number. -/
def byte_at (bios_image : List UInt8) (off : Nat) : Nat :=
  (bios_image.getD off 0).toNat

/-- The dereference `*(uint32_t *) (bios_image + off)` on a little-endian host.
Outside the image the access is a `WildRead`. -/
def load_u32 (bios_image : List UInt8) (off : Nat) : Except Fault Nat :=
  if off + 4 ≤ bios_image.length then
    .ok (byte_at bios_image off + 256 * byte_at bios_image (off + 1)
      + 65536 * byte_at bios_image (off + 2) + 16777216 * byte_at bios_image (off + 3))
  else .error .WildRead

/-- The check `PTR_IN_RANGE (ptr, base, limit)` (lines 18-20) for the pointer
`ptr = base + off` to an object of `size` bytes: `ptr >= base` and
`&ptr[1] <= base + limit`. -/
def PTR_IN_RANGE (off size : Nat) (limit : Int) : Bool :=
  decide (0 ≤ (off : Int) ∧ ((off + size : Nat) : Int) ≤ limit)

/-! ## DescriptorLocator: `find_flash_descriptor`, `find_frba` -/

/-- The `for` loop of `find_flash_descriptor` (lines 102-107), entered with loop
variable `i`.  The result is `some i` when the loop is left through `break`
(`found = 1`) and `none` when the loop condition fails (`found = 0`).  The first
argument after the image bounds the number of iterations. -/
def scan_signature (bios_image : List UInt8) : Nat → Nat → Except Fault (Option Nat)
  | 0, _ => .error .LoopFuel
  | fuel + 1, i =>
    if (i : Int) < (bios_image.length : Int) - 4 then
      match load_u32 bios_image i with
      | .error e => .error e
      | .ok word =>
        if word = 0x0FF0A55A then .ok (some i)
        else scan_signature bios_image fuel (i + 4)
    else .ok none

/-- The function `find_flash_descriptor` (lines 97-116): offset of the
descriptor header. -/
def find_flash_descriptor (L : fdbar_layout) (bios_image : List UInt8) : Except Fault Nat :=
  match scan_signature bios_image (bios_image.length + 1) 0 with
  | .error e => .error e
  | .ok none => .error .SignatureNotFound
  | .ok (some i) =>
    if PTR_IN_RANGE i L.sizeof_fdbar bios_image.length then .ok i
    else .error .OutOfBounds

/-- The offset computed on line 93 from the header word `flmap0`. -/
def frba_offset (flmap0 : Nat) : Nat := u32 (((flmap0 >>> 16) &&& 0xff) <<< 4)

/-- The function `find_frba` (lines 87-95): offset of the region table. -/
def find_frba (L : fdbar_layout) (bios_image : List UInt8) : Except Fault Nat :=
  match find_flash_descriptor L bios_image with
  | .error e => .error e
  | .ok fdb =>
    match load_u32 bios_image (fdb + L.offsetof_flmap0) with
    | .error e => .error e
    | .ok flmap0 =>
      if PTR_IN_RANGE (frba_offset flmap0) sizeof_frba bios_image.length then
        .ok (frba_offset flmap0)
      else .error .OutOfBounds

/-! ## RegionDecoder: `get_region` -/

/-- The function `get_region` (lines 149-175) for the region table at offset
`frba`.  `limit_mask = base_mask << 16` is `0x7fff0000`, which fits an `int`. -/
def get_region (bios_image : List UInt8) (frba : Nat) (region_type : Nat) :
    Except Fault region_t :=
  let base_mask : Nat := 0x7fff
  let limit_mask : Nat := base_mask <<< 16
  if region_type ≥ MAX_REGIONS then .error .InvalidRegionType
  else
    match load_u32 bios_image (frba + 4 * region_type) with
    | .error e => .error e
    | .ok flreg =>
      let base := to_int (u32 ((flreg &&& base_mask) <<< 12))
      let limit := to_int (((flreg &&& limit_mask) >>> 4) ||| 0xfff)
      let size := wrap_int (limit - base + 1)
      .ok { base := base
            limit := limit
            size := if size < 0 then 0 else size
            name := (region_names.getD region_type ("", "")).2 }

/-! ## LayoutReport: `compare_base`, `std::list::sort`, `dump_frba_layout` -/

/-- The predicate `compare_base` (lines 194-207). -/
def compare_base (first_element second_element : region_t) : Bool :=
  if first_element.base < second_element.base then true
  else if first_element.base > second_element.base then false
  else true

/-- Library code: `std::list::merge (x, comp)` as implemented by libstdc++.  The
first list is `*this`; an element of `x` is moved in front of the current
element of `*this` when `comp (*first2, *first1)` holds. -/
def list_merge {α : Type} (comp : α → α → Bool) : List α → List α → List α
  | [], x => x
  | a :: this, x => mergeInto a this (list_merge comp this) x
where
  /-- Walks the second list while the current element `a` of `*this` is fixed. -/
  mergeInto (a : α) (this : List α) (rest : List α → List α) : List α → List α
    | [] => a :: this
    | b :: x => if comp b a then b :: mergeInto a this rest x else a :: rest (b :: x)

/-- Library code: the inner `for` loop of libstdc++'s `std::list::sort` together
with the `swap` that follows it.  `carry` is merged upwards through the
non-empty bins `tmp[0], tmp[1], ...` and stored in the first empty one (or in a
new bin, `++fill`). -/
def sort_carry {α : Type} (comp : α → α → Bool) (carry : List α) :
    List (List α) → List (List α)
  | [] => [carry]
  | bin :: tmp =>
    if bin.isEmpty then carry :: tmp
    else [] :: sort_carry comp (list_merge comp bin carry) tmp

/-- Library code: the `do ... while (!empty ())` loop of `std::list::sort`, which
moves the elements of the list one by one into the bins. -/
def sort_fill {α : Type} (comp : α → α → Bool) : List α → List (List α) → List (List α)
  | [], tmp => tmp
  | a :: rest, tmp => sort_fill comp rest (sort_carry comp [a] tmp)

/-- Library code: the final loop of `std::list::sort`,
`counter->merge (*(counter - 1), comp)` for `counter = tmp + 1 .. fill - 1`. -/
def sort_collapse {α : Type} (comp : α → α → Bool) : List α → List (List α) → List α
  | below, [] => below
  | below, bin :: tmp => sort_collapse comp (list_merge comp bin below) tmp

/-- Library code: `std::list::sort (comp)` of libstdc++, a bottom-up merge sort.
Lists of length 0 or 1 are left alone. -/
def list_sort {α : Type} (comp : α → α → Bool) : List α → List α
  | [] => []
  | [a] => [a]
  | l =>
    match sort_fill comp l [] with
    | [] => []
    | bin :: tmp => sort_collapse comp bin tmp

/-- The collecting loop of `dump_frba_layout` (lines 123-129), run over the
remaining values of `i`, with the list `detected_regions` built so far. -/
def detect_regions (bios_image : List UInt8) (frba : Nat) :
    List Nat → List region_t → Except Fault (List region_t)
  | [], detected_regions => .ok detected_regions
  | i :: rest, detected_regions =>
    match get_region bios_image frba i with
    | .error e => .error e
    | .ok region =>
      if region.size < 1 then detect_regions bios_image frba rest detected_regions
      else detect_regions bios_image frba rest (detected_regions ++ [region])

/-- The regions over which the printing loop of `dump_frba_layout` runs
(lines 118-131): the detected regions after `detected_regions.sort (compare_base)`. -/
def dump_frba_layout (bios_image : List UInt8) (frba : Nat) : Except Fault (List region_t) :=
  match detect_regions bios_image frba (List.range MAX_REGIONS) [] with
  | .error e => .error e
  | .ok detected_regions => .ok (list_sort compare_base detected_regions)

/-- The size value and the unit that the printing loop streams for the region
`var` (lines 137-142); `/` on `int` truncates. -/
def size_field (var : region_t) : Int × String :=
  if var.size < 10000 then (Int.tdiv var.size 1024, "Kb")
  else (Int.tdiv (Int.tdiv var.size 1024) 1024, "MB")

/-- The function `dump_layout` (lines 78-85): the reported regions of an image. -/
def dump_layout (L : fdbar_layout) (bios_image : List UInt8) : Except Fault (List region_t) :=
  match find_frba L bios_image with
  | .error e => .error e
  | .ok frba => dump_frba_layout bios_image frba

/-! ## Vocabulary of the specification and sample inputs -/

/-- The specification's "offset `i` holds the little-endian 32-bit signature
`0x0FF0A55A`": the four bytes `5A A5 F0 0F` lie inside the image at `i`. -/
def has_signature_at (bios_image : List UInt8) (i : Nat) : Prop :=
  i + 4 ≤ bios_image.length ∧ byte_at bios_image i = 0x5A ∧ byte_at bios_image (i + 1) = 0xA5
    ∧ byte_at bios_image (i + 2) = 0xF0 ∧ byte_at bios_image (i + 3) = 0x0F

instance has_signature_at_decidable (bios_image : List UInt8) (i : Nat) :
    Decidable (has_signature_at bios_image i) := by
  unfold has_signature_at; infer_instance

/-- A 68-byte image: descriptor header at offset 4, `flmap0 = 0x00020000`, region
table at offset 32 with the words `0x00000000` (FD), `0x00FF0010` (BIOS),
`0x000F0001` (ME), `0x00007FFF` (GbE .. RES3, decoded size 0) and `0x00010000`
(EC). -/
def sample_image : List UInt8 :=
  [0x00, 0x00, 0x00, 0x00,  0x5A, 0xA5, 0xF0, 0x0F,  0x00, 0x00, 0x02, 0x00,  0x00, 0x00, 0x00, 0x00,
   0x00, 0x00, 0x00, 0x00,  0x00, 0x00, 0x00, 0x00,  0x00, 0x00, 0x00, 0x00,  0x00, 0x00, 0x00, 0x00,
   0x00, 0x00, 0x00, 0x00,  0x10, 0x00, 0xFF, 0x00,  0x01, 0x00, 0x0F, 0x00,  0xFF, 0x7F, 0x00, 0x00,
   0xFF, 0x7F, 0x00, 0x00,  0xFF, 0x7F, 0x00, 0x00,  0xFF, 0x7F, 0x00, 0x00,  0xFF, 0x7F, 0x00, 0x00,
   0x00, 0x00, 0x01, 0x00]

/-- An image that consists of the four signature bytes only. -/
def signature_only : List UInt8 := [0x5A, 0xA5, 0xF0, 0x0F]

/-- An 8-byte image: the signature followed by one zero word. -/
def truncated_header : List UInt8 := [0x5A, 0xA5, 0xF0, 0x0F, 0x00, 0x00, 0x00, 0x00]

/-! ## RegionCatalog: `region_name_short` -/

/-- The function `region_name_short` (lines 184-192). -/
def region_name_short (region_type : Nat) : Except Fault String :=
  if region_type ≥ MAX_REGIONS then .error .InvalidRegionType
  else .ok (region_names.getD region_type ("", "")).2

/-! ## Text output: the stream `cout` and the printing loop of `dump_frba_layout` -/

/-- Library code: the values of the `basefield` of a stream. -/
inductive fmt_base where
  | dec
  | oct
  | hex
  deriving DecidableEq

/-- Library code: the part of the state of `std::cout` that the program touches,
the format flags `basefield` and `showbase`, and the text written so far.  The
program never changes another flag, the width or the fill character. -/
structure ostream where
  basefield : fmt_base
  showbase_flag : Bool
  text : String
  deriving DecidableEq

/-- The digits of `n` in base 16, lower case. -/
def hex_digits (n : Nat) : String := (Nat.toDigits 16 n).asString

/-- The digits of `n` in base 10. -/
def dec_digits (n : Nat) : String := (Nat.toDigits 10 n).asString

/-- The digits of `n` in base 8. -/
def oct_digits (n : Nat) : String := (Nat.toDigits 8 n).asString

/-- Library code: the text that `operator<<` produces for an `int` (the facet
`num_put`, which formats like `printf` with `%d`, `%x` or `%#x`, `%o` or `%#o`).
In base 16 and 8 the value is taken as `unsigned int`, and `showbase` marks the
base of a non-zero value only. -/
def format_int (basefield : fmt_base) (showbase_flag : Bool) (v : Int) : String :=
  match basefield with
  | .dec => if v < 0 then "-" ++ dec_digits v.natAbs else dec_digits v.toNat
  | .hex =>
    if showbase_flag && (v % 2 ^ 32).toNat != 0 then "0x" ++ hex_digits (v % 2 ^ 32).toNat
    else hex_digits (v % 2 ^ 32).toNat
  | .oct =>
    if showbase_flag && (v % 2 ^ 32).toNat != 0 then "0" ++ oct_digits (v % 2 ^ 32).toNat
    else oct_digits (v % 2 ^ 32).toNat

/-- Library code: `os << s` for a character string. -/
def put_str (s : String) (os : ostream) : ostream := { os with text := os.text ++ s }

/-- Library code: `os << v` for an `int`. -/
def put_int (v : Int) (os : ostream) : ostream :=
  { os with text := os.text ++ format_int os.basefield os.showbase_flag v }

/-- Library code: `os << hex`. -/
def hex (os : ostream) : ostream := { os with basefield := .hex }

/-- Library code: `os << showbase`. -/
def showbase (os : ostream) : ostream := { os with showbase_flag := true }

/-- Library code: `os << noshowbase`. -/
def noshowbase (os : ostream) : ostream := { os with showbase_flag := false }

/-- Library code: `os << endl`. -/
def endl (os : ostream) : ostream := { os with text := os.text ++ "\n" }

/-- The body of the printing loop of `dump_frba_layout` (lines 135-144) for the
region `var`. -/
def print_region (var : region_t) (cout : ostream) : ostream :=
  let cout := cout |> put_str "--------------" |> put_str " " |> showbase |> hex
    |> put_int var.base |> endl
  let cout :=
    if var.size < 10000 then
      cout |> put_str var.name |> put_str " = " |> noshowbase
        |> put_int (Int.tdiv var.size 1024) |> put_str "Kb" |> endl
    else
      cout |> put_str var.name |> put_str " = " |> noshowbase
        |> put_int (Int.tdiv (Int.tdiv var.size 1024) 1024) |> put_str "MB" |> endl
  cout |> put_str "--------------" |> put_str " " |> showbase |> hex
    |> put_int var.limit |> endl |> endl

/-- The printing loop of `dump_frba_layout` (lines 133-145). -/
def print_regions : List region_t → ostream → ostream
  | [], cout => cout
  | var :: rest, cout => print_regions rest (print_region var cout)

/-- The function `dump_frba_layout` (lines 118-147) with its output: the stream
`cout` after the call. -/
def dump_frba_layout_cout (bios_image : List UInt8) (frba : Nat) (cout : ostream) :
    Except Fault ostream :=
  match dump_frba_layout bios_image frba with
  | .error e => .error e
  | .ok detected_regions => .ok (print_regions detected_regions cout)

/-- The stream `cout` of a program that has written nothing yet. -/
def cout_initial : ostream := ⟨.dec, false, ""⟩

/-- A 52-byte image: descriptor header at offset 0, `flmap0 = 0x00010000`, region
table at offset 16 with the word `0x00100000` at region type BIOS and
`0x00007FFF` (decoded size 0) at the other eight types. -/
def bios_only_image : List UInt8 :=
  [0x5A, 0xA5, 0xF0, 0x0F,  0x00, 0x00, 0x01, 0x00,  0x00, 0x00, 0x00, 0x00,  0x00, 0x00, 0x00, 0x00,
   0xFF, 0x7F, 0x00, 0x00,  0x00, 0x00, 0x10, 0x00,  0xFF, 0x7F, 0x00, 0x00,  0xFF, 0x7F, 0x00, 0x00,
   0xFF, 0x7F, 0x00, 0x00,  0xFF, 0x7F, 0x00, 0x00,  0xFF, 0x7F, 0x00, 0x00,  0xFF, 0x7F, 0x00, 0x00,
   0xFF, 0x7F, 0x00, 0x00]

/-- A 52-byte image like `bios_only_image`, with the word `0x0FFF0000` at region
type BIOS: base 0, limit `0xFFFFFF`, a region of 16 MB. -/
def sixteen_mb_image : List UInt8 :=
  [0x5A, 0xA5, 0xF0, 0x0F,  0x00, 0x00, 0x01, 0x00,  0x00, 0x00, 0x00, 0x00,  0x00, 0x00, 0x00, 0x00,
   0xFF, 0x7F, 0x00, 0x00,  0x00, 0x00, 0xFF, 0x0F,  0xFF, 0x7F, 0x00, 0x00,  0xFF, 0x7F, 0x00, 0x00,
   0xFF, 0x7F, 0x00, 0x00,  0xFF, 0x7F, 0x00, 0x00,  0xFF, 0x7F, 0x00, 0x00,  0xFF, 0x7F, 0x00, 0x00,
   0xFF, 0x7F, 0x00, 0x00]

/-! ## Bit arithmetic of the region descriptor word -/

theorem base_field_eq (w : Nat) : (w &&& 0x7fff) <<< 12 = w % 32768 * 4096 := by
  rw [Nat.shiftLeft_eq, show (0x7fff : Nat) = 2 ^ 15 - 1 from rfl,
    Nat.and_pow_two_sub_one_eq_mod]

theorem and_limit_mask (w : Nat) : w &&& (0x7fff <<< 16) = w / 65536 % 32768 * 65536 := by
  apply Nat.eq_of_testBit_eq
  intro i
  have hm : (0x7fff : Nat) = 2 ^ 15 - 1 := rfl
  have hr : w / 65536 % 32768 * 65536 = 2 ^ 16 * (w >>> 16 % 2 ^ 15) := by
    rw [Nat.shiftRight_eq_div_pow, Nat.mul_comm]; rfl
  rw [hm, hr]
  simp only [Nat.testBit_and, Nat.testBit_shiftLeft, Nat.testBit_two_pow_sub_one,
    Nat.testBit_mod_two_pow, Nat.testBit_mul_pow_two, Nat.testBit_shiftRight]
  by_cases h16 : i ≥ 16
  · have : 16 + (i - 16) = i := by omega
    simp [h16, this, Bool.and_comm]
  · simp [h16]

theorem limit_field_eq (w : Nat) :
    ((w &&& (0x7fff <<< 16)) >>> 4) ||| 0xfff = w / 65536 % 32768 * 4096 + 4095 := by
  rw [and_limit_mask, Nat.shiftRight_eq_div_pow]
  have h1 : w / 65536 % 32768 * 65536 / 2 ^ 4 = 2 ^ 12 * (w / 65536 % 32768) := by
    omega
  rw [h1, ← Nat.mul_add_lt_is_or (by norm_num)]
  omega

theorem to_int_of_lt {u : Nat} (h : u < 2 ^ 31) : to_int u = (u : Int) := by
  unfold to_int; rw [if_pos h]

theorem wrap_int_of_fits {z : Int} (h1 : -2 ^ 31 ≤ z) (h2 : z < 2 ^ 31) : wrap_int z = z := by
  unfold wrap_int
  norm_num at h1 h2 ⊢
  omega

/-- The region record that `get_region` builds from the descriptor word `w` of
region type `t`, in arithmetic form: `B = w mod 2^15` and `L = (w / 2^16) mod 2^15`
are the two 15-bit fields, in units of 4096 bytes. -/
theorem get_region_arith (bios_image : List UInt8) (frba t w : Nat) (ht : t < MAX_REGIONS)
    (hw : load_u32 bios_image (frba + 4 * t) = .ok w) :
    get_region bios_image frba t = .ok
      { base := ((w % 32768 * 4096 : Nat) : Int)
        limit := ((w / 65536 % 32768 * 4096 + 4095 : Nat) : Int)
        size := if w % 32768 ≤ w / 65536 % 32768
          then (((w / 65536 % 32768 - w % 32768 + 1) * 4096 : Nat) : Int) else 0
        name := (region_names.getD t ("", "")).2 } := by
  have hB : w % 32768 < 32768 := Nat.mod_lt _ (by norm_num)
  have hL : w / 65536 % 32768 < 32768 := Nat.mod_lt _ (by norm_num)
  have hbase : to_int (u32 ((w &&& 0x7fff) <<< 12)) = ((w % 32768 * 4096 : Nat) : Int) := by
    rw [base_field_eq]
    have : u32 (w % 32768 * 4096) = w % 32768 * 4096 := by
      unfold u32; apply Nat.mod_eq_of_lt; omega
    rw [this]; apply to_int_of_lt; omega
  have hlimit : to_int (((w &&& (0x7fff <<< 16)) >>> 4) ||| 0xfff)
      = ((w / 65536 % 32768 * 4096 + 4095 : Nat) : Int) := by
    rw [limit_field_eq]; apply to_int_of_lt; omega
  unfold get_region
  simp only [ge_iff_le, Nat.not_le.mpr ht, if_false, hw, hbase, hlimit]
  have hwrap : wrap_int (((w / 65536 % 32768 * 4096 + 4095 : Nat) : Int)
      - ((w % 32768 * 4096 : Nat) : Int) + 1)
      = ((w / 65536 % 32768 * 4096 + 4095 : Nat) : Int) - ((w % 32768 * 4096 : Nat) : Int) + 1 := by
    apply wrap_int_of_fits <;> norm_num <;> omega
  rw [hwrap]
  congr 2
  split_ifs with h1 h2 h2 <;> push_cast at * <;> omega

/-! ## RegionDecoder -/

/-- C1: for every descriptor word `w` stored at a region type `t < 9` of the
region table, `get_region` returns `base = (w & 0x7FFF) << 12`,
`limit = ((w & (0x7FFF << 16)) >> 4) | 0xFFF`, and `size = limit - base + 1` if
that value is non-negative, otherwise `size = 0`. -/
theorem get_region_decodes (bios_image : List UInt8) (frba t w : Nat) (ht : t < 9)
    (hw : load_u32 bios_image (frba + 4 * t) = .ok w) :
    ∃ region : region_t, get_region bios_image frba t = .ok region ∧
      region.base = (((w &&& 0x7FFF) <<< 12 : Nat) : Int) ∧
      region.limit = ((((w &&& (0x7FFF <<< 16)) >>> 4) ||| 0xFFF : Nat) : Int) ∧
      region.size = (if 0 ≤ region.limit - region.base + 1
        then region.limit - region.base + 1 else 0) := by
  refine ⟨_, get_region_arith bios_image frba t w ht hw, ?_, ?_, ?_⟩
  · rw [base_field_eq]
  · rw [limit_field_eq]
  · simp only
    split_ifs with h1 h2 h2 <;> push_cast at * <;> omega

theorem get_region_decodes_witness :
    load_u32 sample_image (32 + 4 * 1) = .ok 0x00FF0010 ∧
    ∃ region : region_t, get_region sample_image 32 1 = .ok region ∧
      region.base = (((0x00FF0010 &&& 0x7FFF) <<< 12 : Nat) : Int) ∧
      region.limit = ((((0x00FF0010 &&& (0x7FFF <<< 16)) >>> 4) ||| 0xFFF : Nat) : Int) ∧
      region.size = (if 0 ≤ region.limit - region.base + 1
        then region.limit - region.base + 1 else 0) :=
  ⟨by decide, get_region_decodes sample_image 32 1 0x00FF0010 (by decide) (by decide)⟩

/-- C2: for every descriptor word and region type `t < 9`, the region returned by
`get_region` has `base` a multiple of 4096 and `limit` with its low 12 bits all
set, and whenever `size >= 1` it satisfies `limit - base + 1 = size`, that is
`limit = base + size - 1`. -/
theorem get_region_round_trip (bios_image : List UInt8) (frba t w : Nat) (ht : t < 9)
    (hw : load_u32 bios_image (frba + 4 * t) = .ok w) :
    ∃ region : region_t, get_region bios_image frba t = .ok region ∧
      region.base % 4096 = 0 ∧
      0 ≤ region.limit ∧ region.limit.toNat &&& 0xFFF = 0xFFF ∧
      (1 ≤ region.size →
        region.limit - region.base + 1 = region.size ∧
        region.limit = region.base + region.size - 1) := by
  refine ⟨_, get_region_arith bios_image frba t w ht hw, ?_, ?_, ?_, ?_⟩
  · simp only; omega
  · simp only; omega
  · simp only [Int.toNat_ofNat]
    rw [show (0xFFF : Nat) = 2 ^ 12 - 1 from rfl, Nat.and_pow_two_sub_one_eq_mod]
    omega
  · simp only
    intro h1
    split_ifs at h1 ⊢ with h
    · push_cast at *; omega
    · omega

theorem get_region_round_trip_witness :
    load_u32 sample_image (32 + 4 * 2) = .ok 0x000F0001 ∧
    ∃ region : region_t, get_region sample_image 32 2 = .ok region ∧
      region.base % 4096 = 0 ∧
      0 ≤ region.limit ∧ region.limit.toNat &&& 0xFFF = 0xFFF ∧
      (1 ≤ region.size →
        region.limit - region.base + 1 = region.size ∧
        region.limit = region.base + region.size - 1) :=
  ⟨by decide, get_region_round_trip sample_image 32 2 0x000F0001 (by decide) (by decide)⟩

/-! ## DescriptorLocator -/

theorem byte_at_lt (bios_image : List UInt8) (off : Nat) : byte_at bios_image off < 256 := by
  unfold byte_at; exact UInt8.toNat_lt _

theorem load_u32_of_le {bios_image : List UInt8} {off : Nat} (h : off + 4 ≤ bios_image.length) :
    ∃ w, load_u32 bios_image off = .ok w := by
  unfold load_u32; rw [if_pos h]; exact ⟨_, rfl⟩

/-- The word loaded at `i` is the signature exactly when the image holds the
four signature bytes at `i`. -/
theorem load_u32_signature_iff (bios_image : List UInt8) (i : Nat) :
    load_u32 bios_image i = .ok 0x0FF0A55A ↔ has_signature_at bios_image i := by
  have h0 := byte_at_lt bios_image i
  have h1 := byte_at_lt bios_image (i + 1)
  have h2 := byte_at_lt bios_image (i + 2)
  have h3 := byte_at_lt bios_image (i + 3)
  unfold load_u32 has_signature_at
  by_cases h : i + 4 ≤ bios_image.length
  · rw [if_pos h]
    constructor
    · intro e
      have e2 := Except.ok.inj e
      refine ⟨h, ?_, ?_, ?_, ?_⟩ <;> omega
    · rintro ⟨-, e0, e1, e2, e3⟩
      rw [e0, e1, e2, e3]
  · rw [if_neg h]
    constructor
    · intro e; exact Except.noConfusion e
    · intro e; exact absurd e.1 h

/-- What the scan loop returns when started at `i` with enough iterations left:
either no scanned offset holds the signature and the loop ends with `found = 0`,
or it breaks at the first scanned offset that holds it. -/
theorem scan_signature_spec (bios_image : List UInt8) :
    ∀ fuel i : Nat, i ≤ bios_image.length → bios_image.length < i + 4 * fuel →
      (scan_signature bios_image fuel i = .ok none ∧
        ∀ n, i + 4 * n + 4 < bios_image.length → ¬ has_signature_at bios_image (i + 4 * n))
      ∨ (∃ n, scan_signature bios_image fuel i = .ok (some (i + 4 * n)) ∧
          i + 4 * n + 4 < bios_image.length ∧ has_signature_at bios_image (i + 4 * n) ∧
          ∀ m, m < n → ¬ has_signature_at bios_image (i + 4 * m)) := by
  intro fuel
  induction fuel with
  | zero => intro i h1 h2; omega
  | succ fuel ih =>
    intro i h1 h2
    unfold scan_signature
    by_cases hg : (i : Int) < (bios_image.length : Int) - 4
    · rw [if_pos hg]
      have hi : i + 4 < bios_image.length := by omega
      obtain ⟨w, hw⟩ := load_u32_of_le (show i + 4 ≤ bios_image.length by omega)
      rw [hw]
      by_cases hsig : w = 0x0FF0A55A
      · right
        refine ⟨0, ?_, by omega, ?_, ?_⟩
        · simp only [hsig, if_true, Nat.mul_zero, Nat.add_zero]
        · rw [Nat.mul_zero, Nat.add_zero, ← load_u32_signature_iff, hw, hsig]
        · intro m hm; omega
      · have hno : ¬ has_signature_at bios_image i := by
          rw [← load_u32_signature_iff, hw]
          intro e; exact hsig (Except.ok.inj e)
        simp only [hsig, if_false]
        rcases ih (i + 4) (by omega) (by omega) with ⟨hres, hall⟩ | ⟨n, hres, hlt, hs, hfirst⟩
        · left
          refine ⟨hres, ?_⟩
          intro n hn
          cases n with
          | zero => simpa using hno
          | succ n =>
            have := hall n (by omega)
            rwa [show i + 4 + 4 * n = i + 4 * (n + 1) by ring] at this
        · right
          refine ⟨n + 1, ?_, by omega, ?_, ?_⟩
          · rw [hres, show i + 4 + 4 * n = i + 4 * (n + 1) by ring]
          · rwa [show i + 4 + 4 * n = i + 4 * (n + 1) by ring] at hs
          · intro m hm
            cases m with
            | zero => simpa using hno
            | succ m =>
              have := hfirst m (by omega)
              rwa [show i + 4 + 4 * m = i + 4 * (m + 1) by ring] at this
    · rw [if_neg hg]
      left
      refine ⟨rfl, ?_⟩
      intro n hn; omega

/-- The scan of `find_flash_descriptor`, started at offset 0 with its iteration
budget, always finishes: with `found = 0` when no scanned offset holds the
signature, otherwise at the lowest scanned offset that holds it. -/
theorem scan_from_zero (bios_image : List UInt8) :
    (scan_signature bios_image (bios_image.length + 1) 0 = .ok none ∧
        ∀ n, 4 * n + 4 < bios_image.length → ¬ has_signature_at bios_image (4 * n))
      ∨ (∃ n, scan_signature bios_image (bios_image.length + 1) 0 = .ok (some (4 * n)) ∧
          4 * n + 4 < bios_image.length ∧ has_signature_at bios_image (4 * n) ∧
          ∀ m, m < n → ¬ has_signature_at bios_image (4 * m)) := by
  have h := scan_signature_spec bios_image (bios_image.length + 1) 0 (Nat.zero_le _) (by omega)
  simpa only [Nat.zero_add] using h

theorem PTR_IN_RANGE_iff (off size len : Nat) :
    PTR_IN_RANGE off size (len : Int) = true ↔ off + size ≤ len := by
  unfold PTR_IN_RANGE
  rw [decide_eq_true_iff]
  constructor
  · rintro ⟨-, h⟩; exact_mod_cast h
  · intro h; exact ⟨Int.ofNat_nonneg _, by exact_mod_cast h⟩

/-- A successful `find_flash_descriptor` returns a scanned offset that holds the
signature and at which the whole header lies inside the image. -/
theorem find_flash_descriptor_ok {L : fdbar_layout} {bios_image : List UInt8} {fdb : Nat}
    (h : find_flash_descriptor L bios_image = .ok fdb) :
    fdb % 4 = 0 ∧ fdb + 4 < bios_image.length ∧ has_signature_at bios_image fdb ∧
      fdb + L.sizeof_fdbar ≤ bios_image.length := by
  unfold find_flash_descriptor at h
  rcases scan_from_zero bios_image with ⟨hres, -⟩ | ⟨n, hres, hlt, hs, -⟩
  · rw [hres] at h; exact Except.noConfusion h
  · rw [hres] at h
    by_cases hp : PTR_IN_RANGE (4 * n) L.sizeof_fdbar bios_image.length = true
    · simp only [hp, if_true] at h
      have e : 4 * n = fdb := Except.ok.inj h
      subst e
      exact ⟨by omega, hlt, hs, (PTR_IN_RANGE_iff _ _ _).mp hp⟩
    · simp only [hp] at h
      exact Except.noConfusion h

/-- C3: `find_flash_descriptor` fails with `SignatureNotFound` if and only if no
offset `i` that is a multiple of 4 with `0 <= i < len (image) - 4` holds the
little-endian 32-bit value `0x0FF0A55A`; in particular it fails with
`SignatureNotFound` for every image shorter than 4 bytes. -/
theorem find_flash_descriptor_not_found_iff (L : fdbar_layout) (bios_image : List UInt8) :
    (find_flash_descriptor L bios_image = .error .SignatureNotFound ↔
      ∀ i : Nat, i % 4 = 0 → (i : Int) < (bios_image.length : Int) - 4 →
        ¬ has_signature_at bios_image i)
    ∧ (bios_image.length < 4 →
        find_flash_descriptor L bios_image = .error .SignatureNotFound) := by
  have key : find_flash_descriptor L bios_image = .error .SignatureNotFound ↔
      ∀ i : Nat, i % 4 = 0 → (i : Int) < (bios_image.length : Int) - 4 →
        ¬ has_signature_at bios_image i := by
    unfold find_flash_descriptor
    rcases scan_from_zero bios_image with ⟨hres, hall⟩ | ⟨n, hres, hlt, hs, -⟩
    · rw [hres]
      refine ⟨fun _ => ?_, fun _ => rfl⟩
      intro i hi hr
      have := hall (i / 4) (by omega)
      rwa [show 4 * (i / 4) = i by omega] at this
    · rw [hres]
      constructor
      · intro h
        by_cases hp : PTR_IN_RANGE (4 * n) L.sizeof_fdbar bios_image.length = true
        · simp only [hp, if_true] at h; exact Except.noConfusion h
        · simp only [hp] at h; exact absurd (Except.error.inj h) (by decide)
      · intro h
        exact absurd hs (h (4 * n) (by omega) (by omega))
  refine ⟨key, fun hlen => key.mpr ?_⟩
  intro i _ hr
  omega

theorem find_flash_descriptor_not_found_iff_witness :
    ([0x5A, 0xA5, 0xF0] : List UInt8).length < 4 ∧
    find_flash_descriptor ifdtool_fdbar [0x5A, 0xA5, 0xF0] = .error .SignatureNotFound :=
  ⟨by decide, (find_flash_descriptor_not_found_iff ifdtool_fdbar [0x5A, 0xA5, 0xF0]).2 (by decide)⟩

/-- C4, as stated, fails: `signature_only` holds the signature at offset 0, its
only 4-byte-aligned offset, but offset `len - 4` is outside the scanned range and
no header is returned; `truncated_header` holds it at the scanned offset 0, but
the header structure of `ifdtool_fdbar` does not fit and the result is `NULL`. -/
theorem find_flash_descriptor_lowest_counterexample :
    (has_signature_at signature_only 0 ∧
      find_flash_descriptor ifdtool_fdbar signature_only ≠ .ok 0 ∧
      find_flash_descriptor ifdtool_fdbar signature_only = .error .SignatureNotFound) ∧
    (has_signature_at truncated_header 0 ∧
      find_flash_descriptor ifdtool_fdbar truncated_header ≠ .ok 0 ∧
      find_flash_descriptor ifdtool_fdbar truncated_header = .error .OutOfBounds) := by
  decide

/-- C4, amended: when the image holds the signature at a 4-byte-aligned offset of
the scanned range `[0, len (image) - 4)` and `k` is the lowest such offset,
`find_flash_descriptor` returns the header at offset `k` if the header structure
fits into the image (`k + sizeof (fdbar_t) <= len (image)`) and fails with
`OutOfBounds` otherwise; occurrences of the signature after `k` play no role. -/
theorem find_flash_descriptor_lowest (L : fdbar_layout) (bios_image : List UInt8) (k : Nat)
    (hk4 : k % 4 = 0) (hkr : (k : Int) < (bios_image.length : Int) - 4)
    (hks : has_signature_at bios_image k)
    (hmin : ∀ j : Nat, j % 4 = 0 → j < k → ¬ has_signature_at bios_image j) :
    find_flash_descriptor L bios_image =
      if k + L.sizeof_fdbar ≤ bios_image.length then .ok k else .error .OutOfBounds := by
  unfold find_flash_descriptor
  rcases scan_from_zero bios_image with ⟨-, hall⟩ | ⟨n, hres, hlt, hs, hfirst⟩
  · have := hall (k / 4) (by omega)
    rw [show 4 * (k / 4) = k by omega] at this
    exact absurd hks this
  · have e : 4 * n = k := by
      rcases Nat.lt_trichotomy (4 * n) k with h | h | h
      · exact absurd hs (hmin (4 * n) (by omega) h)
      · exact h
      · have := hfirst (k / 4) (by omega)
        rw [show 4 * (k / 4) = k by omega] at this
        exact absurd hks this
    rw [hres, e]
    show (if PTR_IN_RANGE k L.sizeof_fdbar bios_image.length = true then Except.ok k
      else Except.error Fault.OutOfBounds) = _
    by_cases hp : k + L.sizeof_fdbar ≤ bios_image.length
    · rw [if_pos hp, if_pos ((PTR_IN_RANGE_iff _ _ _).mpr hp)]
    · rw [if_neg hp, if_neg (fun h => hp ((PTR_IN_RANGE_iff _ _ _).mp h))]

theorem find_flash_descriptor_lowest_witness :
    (4 % 4 = 0 ∧ ((4 : Nat) : Int) < (sample_image.length : Int) - 4 ∧
      has_signature_at sample_image 4 ∧
      (∀ j : Nat, j % 4 = 0 → j < 4 → ¬ has_signature_at sample_image j)) ∧
    find_flash_descriptor ifdtool_fdbar sample_image =
      if 4 + ifdtool_fdbar.sizeof_fdbar ≤ sample_image.length then .ok 4
      else .error .OutOfBounds :=
  have hmin : ∀ j : Nat, j % 4 = 0 → j < 4 → ¬ has_signature_at sample_image j := by
    intro j h4 hj
    have e : j = 0 := by omega
    subst e
    decide
  ⟨⟨by decide, by decide, by decide, hmin⟩,
    find_flash_descriptor_lowest ifdtool_fdbar sample_image 4 (by decide) (by decide)
      (by decide) hmin⟩

theorem frba_offset_eq (flmap0 : Nat) :
    frba_offset flmap0 = ((flmap0 >>> 16) &&& 0xFF) <<< 4 := by
  unfold frba_offset u32
  apply Nat.mod_eq_of_lt
  have h : (flmap0 >>> 16) &&& 0xFF ≤ 0xFF := Nat.and_le_right
  rw [Nat.shiftLeft_eq]
  omega

/-- The offset returned by `find_frba`, given the header offset found by
`find_flash_descriptor`. -/
theorem find_frba_eq (L : fdbar_layout) (bios_image : List UInt8) (fdb : Nat)
    (h : find_flash_descriptor L bios_image = .ok fdb) :
    ∃ flmap0 : Nat, load_u32 bios_image (fdb + L.offsetof_flmap0) = .ok flmap0 ∧
      find_frba L bios_image =
        if (((flmap0 >>> 16) &&& 0xFF) <<< 4) + 36 ≤ bios_image.length
        then .ok (((flmap0 >>> 16) &&& 0xFF) <<< 4) else .error .OutOfBounds := by
  obtain ⟨-, -, -, hfit⟩ := find_flash_descriptor_ok h
  have hin := L.flmap0_inside
  obtain ⟨flmap0, hw⟩ :=
    load_u32_of_le (show fdb + L.offsetof_flmap0 + 4 ≤ bios_image.length by omega)
  refine ⟨flmap0, hw, ?_⟩
  unfold find_frba
  simp only [h, hw, frba_offset_eq]
  by_cases hp : (((flmap0 >>> 16) &&& 0xFF) <<< 4) + 36 ≤ bios_image.length
  · rw [if_pos hp, if_pos ((PTR_IN_RANGE_iff _ sizeof_frba _).mpr hp)]
  · rw [if_neg hp, if_neg (fun h => hp ((PTR_IN_RANGE_iff _ sizeof_frba _).mp h))]

/-- C5: when the descriptor header is found (at offset `fdb`), `find_frba` computes
`region_table_offset = ((flmap0 >> 16) & 0xFF) << 4` from the header word `flmap0`
and uses it as a byte offset from the start of the image; it fails with
`OutOfBounds` whenever `region_table_offset + 36 > len (image)` and returns the
offset otherwise. -/
theorem find_frba_offset (L : fdbar_layout) (bios_image : List UInt8) (fdb : Nat)
    (h : find_flash_descriptor L bios_image = .ok fdb) :
    ∃ flmap0 : Nat, load_u32 bios_image (fdb + L.offsetof_flmap0) = .ok flmap0 ∧
      find_frba L bios_image =
        if (((flmap0 >>> 16) &&& 0xFF) <<< 4) + 36 ≤ bios_image.length
        then .ok (((flmap0 >>> 16) &&& 0xFF) <<< 4) else .error .OutOfBounds :=
  find_frba_eq L bios_image fdb h

theorem find_frba_offset_witness :
    find_flash_descriptor ifdtool_fdbar sample_image = .ok 4 ∧
    ∃ flmap0 : Nat, load_u32 sample_image (4 + ifdtool_fdbar.offsetof_flmap0) = .ok flmap0 ∧
      find_frba ifdtool_fdbar sample_image =
        if (((flmap0 >>> 16) &&& 0xFF) <<< 4) + 36 ≤ sample_image.length
        then .ok (((flmap0 >>> 16) &&& 0xFF) <<< 4) else .error .OutOfBounds :=
  ⟨by decide, find_frba_offset ifdtool_fdbar sample_image 4 (by decide)⟩

/-! ## The list sort -/

theorem list_merge_nil_left {α : Type} (comp : α → α → Bool) (x : List α) :
    list_merge comp [] x = x := rfl

theorem list_merge_nil_right {α : Type} (comp : α → α → Bool) (l : List α) :
    list_merge comp l [] = l := by
  cases l <;> rfl

theorem list_merge_cons_cons {α : Type} (comp : α → α → Bool) (a b : α) (l x : List α) :
    list_merge comp (a :: l) (b :: x) =
      if comp b a then b :: list_merge comp (a :: l) x
      else a :: list_merge comp l (b :: x) := rfl

/-- Merging keeps every element of both lists, with its multiplicity. -/
theorem list_merge_perm {α : Type} (comp : α → α → Bool) :
    ∀ l x : List α, (list_merge comp l x).Perm (l ++ x)
  | [], x => by rw [list_merge_nil_left]; exact List.Perm.refl _
  | a :: l, [] => by rw [list_merge_nil_right, List.append_nil]
  | a :: l, b :: x => by
    rw [list_merge_cons_cons]
    split
    · exact ((list_merge_perm comp (a :: l) x).cons b).trans List.perm_middle.symm
    · exact (list_merge_perm comp l (b :: x)).cons a
termination_by l x => l.length + x.length

/-- Merging two lists that are ordered by a total, transitive `comp` gives an
ordered list. -/
theorem list_merge_sorted {α : Type} (comp : α → α → Bool)
    (htot : ∀ a b, comp a b = true ∨ comp b a = true)
    (htr : ∀ a b c, comp a b = true → comp b c = true → comp a c = true) :
    ∀ l x : List α, l.Pairwise (fun a b => comp a b = true) →
      x.Pairwise (fun a b => comp a b = true) →
      (list_merge comp l x).Pairwise (fun a b => comp a b = true)
  | [], x => fun _ hx => by rw [list_merge_nil_left]; exact hx
  | a :: l, [] => fun hl _ => by rw [list_merge_nil_right]; exact hl
  | a :: l, b :: x => fun hl hx => by
    rw [list_merge_cons_cons]
    have hl2 := List.pairwise_cons.mp hl
    have hx2 := List.pairwise_cons.mp hx
    by_cases hc : comp b a = true
    · rw [if_pos hc]
      refine List.pairwise_cons.mpr ⟨?_, list_merge_sorted comp htot htr (a :: l) x hl hx2.2⟩
      intro z hz
      rcases List.mem_append.mp ((list_merge_perm comp (a :: l) x).mem_iff.mp hz) with h | h
      · rcases List.mem_cons.mp h with h | h
        · rw [h]; exact hc
        · exact htr b a z hc (hl2.1 z h)
      · exact hx2.1 z h
    · rw [if_neg hc]
      have hab : comp a b = true := (htot a b).resolve_right hc
      refine List.pairwise_cons.mpr ⟨?_, list_merge_sorted comp htot htr l (b :: x) hl2.2 hx⟩
      intro z hz
      rcases List.mem_append.mp ((list_merge_perm comp l (b :: x)).mem_iff.mp hz) with h | h
      · exact hl2.1 z h
      · rcases List.mem_cons.mp h with h | h
        · rw [h]; exact hab
        · exact htr a b z hab (hx2.1 z h)
termination_by l x => l.length + x.length

theorem sort_carry_perm {α : Type} (comp : α → α → Bool) :
    ∀ (tmp : List (List α)) (carry : List α),
      (sort_carry comp carry tmp).flatten.Perm (carry ++ tmp.flatten)
  | [], carry => by simp [sort_carry]
  | bin :: tmp, carry => by
    unfold sort_carry
    by_cases hb : bin.isEmpty = true
    · rw [if_pos hb, List.isEmpty_iff.mp hb]
      simp
    · rw [if_neg hb]
      simp only [List.flatten_cons, List.nil_append]
      refine (sort_carry_perm comp tmp (list_merge comp bin carry)).trans ?_
      refine ((list_merge_perm comp bin carry).append_right _).trans ?_
      rw [List.append_assoc, ← List.append_assoc carry]
      rw [← List.append_assoc bin]
      exact List.perm_append_comm.append_right _

theorem sort_carry_sorted {α : Type} (comp : α → α → Bool)
    (htot : ∀ a b, comp a b = true ∨ comp b a = true)
    (htr : ∀ a b c, comp a b = true → comp b c = true → comp a c = true) :
    ∀ (tmp : List (List α)) (carry : List α),
      carry.Pairwise (fun a b => comp a b = true) →
      (∀ bin ∈ tmp, bin.Pairwise (fun a b => comp a b = true)) →
      ∀ bin ∈ sort_carry comp carry tmp, bin.Pairwise (fun a b => comp a b = true)
  | [], carry => fun hc _ bin hb => by
    simp only [sort_carry, List.mem_singleton] at hb
    rw [hb]; exact hc
  | b :: tmp, carry => fun hc ht bin hb => by
    unfold sort_carry at hb
    by_cases he : b.isEmpty = true
    · rw [if_pos he] at hb
      rcases List.mem_cons.mp hb with h | h
      · rw [h]; exact hc
      · exact ht bin (List.mem_cons_of_mem _ h)
    · rw [if_neg he] at hb
      rcases List.mem_cons.mp hb with h | h
      · rw [h]; exact List.Pairwise.nil
      · exact sort_carry_sorted comp htot htr tmp (list_merge comp b carry)
          (list_merge_sorted comp htot htr b carry (ht b (List.mem_cons_self _ _)) hc)
          (fun c hcm => ht c (List.mem_cons_of_mem _ hcm)) bin h

theorem sort_fill_perm {α : Type} (comp : α → α → Bool) :
    ∀ (l : List α) (tmp : List (List α)),
      (sort_fill comp l tmp).flatten.Perm (l ++ tmp.flatten)
  | [], tmp => by simp [sort_fill]
  | a :: rest, tmp => by
    unfold sort_fill
    refine (sort_fill_perm comp rest (sort_carry comp [a] tmp)).trans ?_
    refine ((sort_carry_perm comp tmp [a]).append_left rest).trans ?_
    simp only [List.singleton_append, List.cons_append]
    exact List.perm_middle

theorem sort_fill_sorted {α : Type} (comp : α → α → Bool)
    (htot : ∀ a b, comp a b = true ∨ comp b a = true)
    (htr : ∀ a b c, comp a b = true → comp b c = true → comp a c = true) :
    ∀ (l : List α) (tmp : List (List α)),
      (∀ bin ∈ tmp, bin.Pairwise (fun a b => comp a b = true)) →
      ∀ bin ∈ sort_fill comp l tmp, bin.Pairwise (fun a b => comp a b = true)
  | [], tmp => fun ht bin hb => ht bin hb
  | a :: rest, tmp => fun ht bin hb => by
    unfold sort_fill at hb
    exact sort_fill_sorted comp htot htr rest (sort_carry comp [a] tmp)
      (sort_carry_sorted comp htot htr tmp [a] (List.pairwise_singleton _ _) ht) bin hb

theorem sort_collapse_perm {α : Type} (comp : α → α → Bool) :
    ∀ (tmp : List (List α)) (below : List α),
      (sort_collapse comp below tmp).Perm (below ++ tmp.flatten)
  | [], below => by simp [sort_collapse]
  | bin :: tmp, below => by
    unfold sort_collapse
    refine (sort_collapse_perm comp tmp (list_merge comp bin below)).trans ?_
    refine ((list_merge_perm comp bin below).append_right _).trans ?_
    rw [List.flatten_cons, ← List.append_assoc]
    exact List.perm_append_comm.append_right _

theorem sort_collapse_sorted {α : Type} (comp : α → α → Bool)
    (htot : ∀ a b, comp a b = true ∨ comp b a = true)
    (htr : ∀ a b c, comp a b = true → comp b c = true → comp a c = true) :
    ∀ (tmp : List (List α)) (below : List α),
      below.Pairwise (fun a b => comp a b = true) →
      (∀ bin ∈ tmp, bin.Pairwise (fun a b => comp a b = true)) →
      (sort_collapse comp below tmp).Pairwise (fun a b => comp a b = true)
  | [], below => fun hb _ => by simpa [sort_collapse] using hb
  | bin :: tmp, below => fun hb ht => by
    unfold sort_collapse
    exact sort_collapse_sorted comp htot htr tmp (list_merge comp bin below)
      (list_merge_sorted comp htot htr bin below (ht bin (List.mem_cons_self _ _)) hb)
      (fun c hc => ht c (List.mem_cons_of_mem _ hc))

theorem list_sort_cons_cons {α : Type} (comp : α → α → Bool) (a b : α) (l : List α) :
    list_sort comp (a :: b :: l) =
      match sort_fill comp (a :: b :: l) [] with
      | [] => []
      | bin :: tmp => sort_collapse comp bin tmp := rfl

/-- The list sort returns a rearrangement of its input. -/
theorem list_sort_perm {α : Type} (comp : α → α → Bool) (l : List α) :
    (list_sort comp l).Perm l := by
  match l with
  | [] => exact List.Perm.refl _
  | [a] => exact List.Perm.refl _
  | a :: b :: l =>
    have hf := sort_fill_perm comp (a :: b :: l) []
    rw [List.flatten_nil, List.append_nil] at hf
    rw [list_sort_cons_cons]
    split
    · next hs => rw [hs] at hf; simp at hf
    · next bin tmp hs =>
      rw [hs] at hf
      exact (sort_collapse_perm comp tmp bin).trans hf

/-- The list sort returns an ordered list when `comp` is total and transitive. -/
theorem list_sort_sorted {α : Type} (comp : α → α → Bool)
    (htot : ∀ a b, comp a b = true ∨ comp b a = true)
    (htr : ∀ a b c, comp a b = true → comp b c = true → comp a c = true) (l : List α) :
    (list_sort comp l).Pairwise (fun a b => comp a b = true) := by
  match l with
  | [] => exact List.Pairwise.nil
  | [a] => exact List.pairwise_singleton _ _
  | a :: b :: l =>
    have hf := sort_fill_sorted comp htot htr (a :: b :: l) []
      (fun _ h => absurd h (List.not_mem_nil _))
    rw [list_sort_cons_cons]
    split
    · exact List.Pairwise.nil
    · next bin tmp hs =>
      rw [hs] at hf
      exact sort_collapse_sorted comp htot htr tmp bin (hf bin (List.mem_cons_self _ _))
        (fun c hc => hf c (List.mem_cons_of_mem _ hc))

/-! ## LayoutReport -/

theorem compare_base_iff (a b : region_t) : compare_base a b = true ↔ a.base ≤ b.base := by
  unfold compare_base
  split_ifs with h1 h2
  · simp only [true_iff]; omega
  · simp only [Bool.false_eq_true, false_iff]; omega
  · simp only [true_iff]; omega

theorem compare_base_total (a b : region_t) :
    compare_base a b = true ∨ compare_base b a = true := by
  rw [compare_base_iff, compare_base_iff]; omega

theorem compare_base_trans (a b c : region_t) (h1 : compare_base a b = true)
    (h2 : compare_base b c = true) : compare_base a c = true := by
  rw [compare_base_iff] at *; omega

/-- Inside a region table that lies in the image, `get_region` returns a region
for each of the 9 region types. -/
theorem get_region_total {bios_image : List UInt8} {frba : Nat}
    (h : frba + 36 ≤ bios_image.length) {t : Nat} (ht : t < 9) :
    ∃ region : region_t, get_region bios_image frba t = .ok region := by
  obtain ⟨w, hw⟩ := load_u32_of_le (show frba + 4 * t + 4 ≤ bios_image.length by omega)
  exact ⟨_, get_region_arith bios_image frba t w ht hw⟩

theorem decoded_exists {bios_image : List UInt8} {frba : Nat}
    (h : frba + 36 ≤ bios_image.length) :
    ∀ ts : List Nat, (∀ t ∈ ts, t < 9) →
      ∃ decoded : List region_t,
        List.Forall₂ (fun t region => get_region bios_image frba t = .ok region) ts decoded
  | [], _ => ⟨[], List.Forall₂.nil⟩
  | t :: ts, hts => by
    obtain ⟨region, hr⟩ := get_region_total h (hts t (List.mem_cons_self _ _))
    obtain ⟨decoded, hd⟩ := decoded_exists h ts (fun u hu => hts u (List.mem_cons_of_mem _ hu))
    exact ⟨region :: decoded, List.Forall₂.cons hr hd⟩

/-- The collecting loop appends, in order, the decoded regions whose size is at
least 1. -/
theorem detect_regions_eq (bios_image : List UInt8) (frba : Nat) :
    ∀ (ts : List Nat) (decoded : List region_t) (detected : List region_t),
      List.Forall₂ (fun t region => get_region bios_image frba t = .ok region) ts decoded →
      detect_regions bios_image frba ts detected =
        .ok (detected ++ decoded.filter (fun region => decide (1 ≤ region.size)))
  | [], decoded, detected => fun h => by
    cases h
    simp [detect_regions]
  | t :: ts, decoded, detected => fun h => by
    cases h with
    | cons hr hd =>
      rename_i region rest
      unfold detect_regions
      rw [hr]
      by_cases hs : region.size < 1
      · simp only [hs, if_true]
        rw [detect_regions_eq bios_image frba ts rest detected hd]
        have : ¬ (1 ≤ region.size) := by omega
        simp [List.filter_cons, this]
      · simp only [hs, if_false]
        rw [detect_regions_eq bios_image frba ts rest (detected ++ [region]) hd]
        have : 1 ≤ region.size := by omega
        simp [List.filter_cons, this]

/-- The report of a region table that lies in the image: the decoded regions of
size at least 1, sorted with `compare_base`. -/
theorem dump_frba_layout_eq {bios_image : List UInt8} {frba : Nat}
    (h : frba + 36 ≤ bios_image.length) :
    ∃ decoded : List region_t,
      List.Forall₂ (fun t region => get_region bios_image frba t = .ok region)
        (List.range 9) decoded ∧
      dump_frba_layout bios_image frba =
        .ok (list_sort compare_base (decoded.filter (fun region => decide (1 ≤ region.size)))) := by
  obtain ⟨decoded, hd⟩ := decoded_exists h (List.range 9) (fun t ht => List.mem_range.mp ht)
  refine ⟨decoded, hd, ?_⟩
  unfold dump_frba_layout
  rw [show MAX_REGIONS = 9 from rfl, detect_regions_eq bios_image frba _ decoded [] hd]
  rfl

theorem find_frba_ok {L : fdbar_layout} {bios_image : List UInt8} {frba : Nat}
    (h : find_frba L bios_image = .ok frba) : frba + 36 ≤ bios_image.length := by
  unfold find_frba at h
  cases hf : find_flash_descriptor L bios_image with
  | error e => rw [hf] at h; exact Except.noConfusion h
  | ok fdb =>
    obtain ⟨flmap0, hw, -⟩ := find_frba_eq L bios_image fdb hf
    rw [hf] at h
    simp only [hw] at h
    by_cases hp : PTR_IN_RANGE (frba_offset flmap0) sizeof_frba bios_image.length = true
    · simp only [hp, if_true] at h
      have e : frba_offset flmap0 = frba := Except.ok.inj h
      rw [← e]
      exact (PTR_IN_RANGE_iff _ sizeof_frba _).mp hp
    · simp only [hp] at h
      exact Except.noConfusion h

theorem find_flash_descriptor_cases (L : fdbar_layout) (bios_image : List UInt8) :
    find_flash_descriptor L bios_image = .error .SignatureNotFound ∨
    find_flash_descriptor L bios_image = .error .OutOfBounds ∨
    ∃ fdb, find_flash_descriptor L bios_image = .ok fdb := by
  unfold find_flash_descriptor
  rcases scan_from_zero bios_image with ⟨hres, -⟩ | ⟨n, hres, -, -, -⟩
  · rw [hres]; exact Or.inl rfl
  · rw [hres]
    by_cases hp : PTR_IN_RANGE (4 * n) L.sizeof_fdbar bios_image.length = true
    · simp only [hp, if_true]; exact Or.inr (Or.inr ⟨_, rfl⟩)
    · simp only [hp]; exact Or.inr (Or.inl rfl)

theorem find_frba_cases (L : fdbar_layout) (bios_image : List UInt8) :
    find_frba L bios_image = .error .SignatureNotFound ∨
    find_frba L bios_image = .error .OutOfBounds ∨
    ∃ frba, find_frba L bios_image = .ok frba := by
  rcases find_flash_descriptor_cases L bios_image with h | h | ⟨fdb, h⟩
  · left; unfold find_frba; rw [h]
  · right; left; unfold find_frba; rw [h]
  · obtain ⟨flmap0, -, hfr⟩ := find_frba_eq L bios_image fdb h
    rw [hfr]
    split_ifs
    · exact Or.inr (Or.inr ⟨_, rfl⟩)
    · exact Or.inr (Or.inl rfl)

theorem get_region_name {bios_image : List UInt8} {frba t : Nat} {region : region_t}
    (h : get_region bios_image frba t = .ok region) :
    t < 9 ∧ region.name = (region_names.getD t ("", "")).2 := by
  by_cases ht : t < 9
  · refine ⟨ht, ?_⟩
    cases hw : load_u32 bios_image (frba + 4 * t) with
    | error e =>
      unfold get_region at h
      simp only [ge_iff_le, Nat.not_le.mpr (show t < MAX_REGIONS from ht), if_false, hw] at h
      exact Except.noConfusion h
    | ok w =>
      rw [get_region_arith bios_image frba t w ht hw] at h
      rw [← Except.ok.inj h]
  · unfold get_region at h
    simp only [ge_iff_le, show MAX_REGIONS ≤ t from Nat.not_lt.mp ht, if_true] at h
    exact Except.noConfusion h

theorem decoded_names {bios_image : List UInt8} {frba : Nat} :
    ∀ (ts : List Nat) (decoded : List region_t),
      List.Forall₂ (fun t region => get_region bios_image frba t = .ok region) ts decoded →
      decoded.map (fun region => region.name) =
        ts.map (fun t => (region_names.getD t ("", "")).2)
  | [], _, h => by cases h; rfl
  | t :: ts, _, h => by
    cases h with
    | cons hr hd =>
      rw [List.map_cons, List.map_cons, (get_region_name hr).2, decoded_names ts _ hd]

/-- C6: every read of the image made by the core is in bounds.  No run of
`find_flash_descriptor` or `find_frba` ends in the out-of-range access branch of
the embedding (nor exhausts the scan budget); every offset `i` admitted by the scan
loop satisfies `i + 4 <= len (image)`; and whenever `find_frba` succeeds, the
header word is read inside the image, `region_table_offset + 36 <= len (image)`,
each of the 9 reads `flreg[t]` of `get_region` lies inside the image, and
`dump_frba_layout` returns its rows. -/
theorem reads_in_bounds (L : fdbar_layout) (bios_image : List UInt8) :
    (find_flash_descriptor L bios_image ≠ .error .WildRead ∧
      find_flash_descriptor L bios_image ≠ .error .LoopFuel ∧
      find_frba L bios_image ≠ .error .WildRead ∧
      find_frba L bios_image ≠ .error .LoopFuel) ∧
    (∀ i : Nat, (i : Int) < (bios_image.length : Int) - 4 →
      i + 4 ≤ bios_image.length ∧ ∃ word, load_u32 bios_image i = .ok word) ∧
    (∀ frba : Nat, find_frba L bios_image = .ok frba →
      (∃ fdb flmap0, find_flash_descriptor L bios_image = .ok fdb ∧
        fdb + L.offsetof_flmap0 + 4 ≤ bios_image.length ∧
        load_u32 bios_image (fdb + L.offsetof_flmap0) = .ok flmap0) ∧
      frba + 36 ≤ bios_image.length ∧
      (∀ t : Nat, t < 9 →
        frba + 4 * t + 4 ≤ bios_image.length ∧
        (∃ flreg, load_u32 bios_image (frba + 4 * t) = .ok flreg) ∧
        ∃ region, get_region bios_image frba t = .ok region) ∧
      ∃ rows, dump_frba_layout bios_image frba = .ok rows ∧
        dump_layout L bios_image = .ok rows) := by
  refine ⟨⟨?_, ?_, ?_, ?_⟩, ?_, ?_⟩
  · rcases find_flash_descriptor_cases L bios_image with h | h | ⟨fdb, h⟩ <;> rw [h] <;>
      intro e <;> cases e
  · rcases find_flash_descriptor_cases L bios_image with h | h | ⟨fdb, h⟩ <;> rw [h] <;>
      intro e <;> cases e
  · rcases find_frba_cases L bios_image with h | h | ⟨fdb, h⟩ <;> rw [h] <;>
      intro e <;> cases e
  · rcases find_frba_cases L bios_image with h | h | ⟨fdb, h⟩ <;> rw [h] <;>
      intro e <;> cases e
  · intro i hi
    have hle : i + 4 ≤ bios_image.length := by omega
    exact ⟨hle, load_u32_of_le hle⟩
  · intro frba h
    have hfit := find_frba_ok h
    refine ⟨?_, hfit, ?_, ?_⟩
    · rcases find_flash_descriptor_cases L bios_image with hf | hf | ⟨fdb, hf⟩
      · unfold find_frba at h; rw [hf] at h; exact Except.noConfusion h
      · unfold find_frba at h; rw [hf] at h; exact Except.noConfusion h
      · obtain ⟨flmap0, hw, -⟩ := find_frba_eq L bios_image fdb hf
        have h1 := (find_flash_descriptor_ok hf).2.2.2
        have h2 := L.flmap0_inside
        exact ⟨fdb, flmap0, hf, by omega, hw⟩
    · intro t ht
      have hle : frba + 4 * t + 4 ≤ bios_image.length := by omega
      exact ⟨hle, load_u32_of_le hle, get_region_total hfit ht⟩
    · obtain ⟨decoded, -, hd⟩ := dump_frba_layout_eq hfit
      refine ⟨_, hd, ?_⟩
      unfold dump_layout
      rw [h]
      exact hd

theorem reads_in_bounds_witness :
    find_frba ifdtool_fdbar sample_image = .ok 32 ∧
    ((∃ fdb flmap0, find_flash_descriptor ifdtool_fdbar sample_image = .ok fdb ∧
        fdb + ifdtool_fdbar.offsetof_flmap0 + 4 ≤ sample_image.length ∧
        load_u32 sample_image (fdb + ifdtool_fdbar.offsetof_flmap0) = .ok flmap0) ∧
      32 + 36 ≤ sample_image.length ∧
      (∀ t : Nat, t < 9 →
        32 + 4 * t + 4 ≤ sample_image.length ∧
        (∃ flreg, load_u32 sample_image (32 + 4 * t) = .ok flreg) ∧
        ∃ region, get_region sample_image 32 t = .ok region) ∧
      ∃ rows, dump_frba_layout sample_image 32 = .ok rows ∧
        dump_layout ifdtool_fdbar sample_image = .ok rows) :=
  ⟨by decide, (reads_in_bounds ifdtool_fdbar sample_image).2.2 32 (by decide)⟩

/-- C7: for every image on which the descriptor is located, the regions reported
by `dump_frba_layout` are in non-decreasing order of `base`: each row's base is at
most the base of every later row, and in particular of the next row. -/
theorem dump_layout_sorted (L : fdbar_layout) (bios_image : List UInt8) (frba : Nat)
    (h : find_frba L bios_image = .ok frba) :
    ∃ rows : List region_t,
      dump_layout L bios_image = .ok rows ∧
      dump_frba_layout bios_image frba = .ok rows ∧
      rows.Pairwise (fun a b => a.base ≤ b.base) ∧
      rows.Chain' (fun a b => a.base ≤ b.base) := by
  obtain ⟨decoded, -, hd⟩ := dump_frba_layout_eq (find_frba_ok h)
  have hs := list_sort_sorted compare_base compare_base_total compare_base_trans
    (decoded.filter (fun region => decide (1 ≤ region.size)))
  have hp : (list_sort compare_base
      (decoded.filter (fun region => decide (1 ≤ region.size)))).Pairwise
      (fun a b => a.base ≤ b.base) :=
    hs.imp (fun {a b} hab => (compare_base_iff a b).mp hab)
  refine ⟨_, ?_, hd, hp, hp.chain'⟩
  unfold dump_layout
  rw [h]
  exact hd

theorem dump_layout_sorted_witness :
    find_frba ifdtool_fdbar sample_image = .ok 32 ∧
    ∃ rows : List region_t,
      dump_layout ifdtool_fdbar sample_image = .ok rows ∧
      dump_frba_layout sample_image 32 = .ok rows ∧
      rows.Pairwise (fun a b => a.base ≤ b.base) ∧
      rows.Chain' (fun a b => a.base ≤ b.base) :=
  ⟨by decide, dump_layout_sorted ifdtool_fdbar sample_image 32 (by decide)⟩

/-- C8: for every region table (inside the image), no region whose decoded size
is below 1 appears among the rows reported by `dump_frba_layout`. -/
theorem dump_frba_layout_no_empty (bios_image : List UInt8) (frba : Nat)
    (h : frba + 36 ≤ bios_image.length) :
    ∃ rows : List region_t,
      dump_frba_layout bios_image frba = .ok rows ∧
      ∀ region ∈ rows, ¬ region.size < 1 := by
  obtain ⟨decoded, -, hd⟩ := dump_frba_layout_eq h
  refine ⟨_, hd, ?_⟩
  intro region hr
  have hmem := (list_sort_perm compare_base _).mem_iff.mp hr
  have h1 : 1 ≤ region.size := by simpa using (List.mem_filter.mp hmem).2
  omega

theorem dump_frba_layout_no_empty_witness :
    32 + 36 ≤ sample_image.length ∧
    ∃ rows : List region_t,
      dump_frba_layout sample_image 32 = .ok rows ∧
      ∀ region ∈ rows, ¬ region.size < 1 :=
  ⟨by decide, dump_frba_layout_no_empty sample_image 32 (by decide)⟩

/-- C9: for every region table (inside the image), the rows reported by
`dump_frba_layout` are a permutation of the decoded regions of the 9 region types
that have `size >= 1`: with `decoded` the results of `get_region` for the types
`0 .. 8`, the rows are a rearrangement of the entries of `decoded` of size at
least 1.  The entries of `decoded` are pairwise different, so each of them
appears exactly once among the rows, also when two of them have the same base. -/
theorem dump_frba_layout_perm (bios_image : List UInt8) (frba : Nat)
    (h : frba + 36 ≤ bios_image.length) :
    ∃ decoded rows : List region_t,
      List.Forall₂ (fun t region => get_region bios_image frba t = .ok region)
        (List.range 9) decoded ∧
      dump_frba_layout bios_image frba = .ok rows ∧
      rows.Perm (decoded.filter (fun region => decide (1 ≤ region.size))) ∧
      decoded.Nodup ∧ rows.Nodup ∧
      ∀ region ∈ decoded, 1 ≤ region.size → rows.count region = 1 := by
  obtain ⟨decoded, hf, hd⟩ := dump_frba_layout_eq h
  have hperm := list_sort_perm compare_base
    (decoded.filter (fun region => decide (1 ≤ region.size)))
  have hnames := decoded_names (List.range 9) decoded hf
  have hnd : decoded.Nodup := by
    apply List.Nodup.of_map (fun region : region_t => region.name)
    rw [hnames]
    decide
  have hrows : (list_sort compare_base
      (decoded.filter (fun region => decide (1 ≤ region.size)))).Nodup :=
    hperm.nodup_iff.mpr (hnd.filter _)
  refine ⟨decoded, _, hf, hd, hperm, hnd, hrows, ?_⟩
  intro region hr hs
  apply List.count_eq_one_of_mem hrows
  exact hperm.mem_iff.mpr (List.mem_filter.mpr ⟨hr, by simpa using hs⟩)

theorem dump_frba_layout_perm_witness :
    32 + 36 ≤ sample_image.length ∧
    ∃ decoded rows : List region_t,
      List.Forall₂ (fun t region => get_region sample_image 32 t = .ok region)
        (List.range 9) decoded ∧
      dump_frba_layout sample_image 32 = .ok rows ∧
      rows.Perm (decoded.filter (fun region => decide (1 ≤ region.size))) ∧
      decoded.Nodup ∧ rows.Nodup ∧
      ∀ region ∈ decoded, 1 ≤ region.size → rows.count region = 1 :=
  ⟨by decide, dump_frba_layout_perm sample_image 32 (by decide)⟩

theorem detect_regions_size (bios_image : List UInt8) (frba : Nat) :
    ∀ (ts : List Nat) (detected out : List region_t),
      detect_regions bios_image frba ts detected = .ok out →
      (∀ region ∈ detected, 1 ≤ region.size) → ∀ region ∈ out, 1 ≤ region.size
  | [], detected, out => fun h hd => by
    have e : detected = out := Except.ok.inj h
    rw [← e]; exact hd
  | t :: ts, detected, out => fun h hd => by
    unfold detect_regions at h
    cases hr : get_region bios_image frba t with
    | error e => rw [hr] at h; exact Except.noConfusion h
    | ok region =>
      rw [hr] at h
      by_cases hs : region.size < 1
      · simp only [hs, if_true] at h
        exact detect_regions_size bios_image frba ts detected out h hd
      · simp only [hs, if_false] at h
        refine detect_regions_size bios_image frba ts (detected ++ [region]) out h ?_
        intro r hm
        rcases List.mem_append.mp hm with h1 | h1
        · exact hd r h1
        · rw [List.mem_singleton.mp h1]; omega

/-- Every region reported by `dump_frba_layout` has size at least 1. -/
theorem dump_frba_layout_size {bios_image : List UInt8} {frba : Nat} {rows : List region_t}
    (h : dump_frba_layout bios_image frba = .ok rows) :
    ∀ region ∈ rows, 1 ≤ region.size := by
  unfold dump_frba_layout at h
  cases hd : detect_regions bios_image frba (List.range MAX_REGIONS) [] with
  | error e => rw [hd] at h; exact Except.noConfusion h
  | ok detected =>
    rw [hd] at h
    have e : list_sort compare_base detected = rows := Except.ok.inj h
    intro region hr
    rw [← e] at hr
    exact detect_regions_size bios_image frba _ [] detected hd
      (fun _ hn => absurd hn (List.not_mem_nil _)) region
      ((list_sort_perm compare_base detected).mem_iff.mp hr)

/-! ## Text of the report -/

theorem str_rule : ("--------------" ++ " " : String) = "-------------- " := by decide

theorem str_rule_0x : ("-------------- " ++ "0x" : String) = "-------------- 0x" := by decide

/-- The stream after the loop body has run for `var`: the flags are `hex` and
`showbase`, and three lines and a blank line have been added to the text.  The
numbers are formatted in base 16 whatever the flags were before. -/
theorem print_region_eq (var : region_t) (cout : ostream) :
    print_region var cout =
      { basefield := .hex
        showbase_flag := true
        text := cout.text ++ ("-------------- " ++ format_int .hex true var.base ++ "\n"
          ++ var.name ++ " = " ++ format_int .hex false (size_field var).1
          ++ (size_field var).2 ++ "\n"
          ++ "-------------- " ++ format_int .hex true var.limit ++ "\n" ++ "\n") } := by
  unfold print_region size_field
  by_cases h : var.size < 10000
  · simp only [h, if_true, put_str, put_int, hex, showbase, noshowbase, endl,
      String.append_assoc, ← str_rule]
  · simp only [h, if_false, put_str, put_int, hex, showbase, noshowbase, endl,
      String.append_assoc, ← str_rule]

theorem print_regions_flags (rows : List region_t) (cout : ostream) :
    rows ≠ [] → (print_regions rows cout).basefield = .hex ∧
      (print_regions rows cout).showbase_flag = true := by
  induction rows generalizing cout with
  | nil => intro h; exact absurd rfl h
  | cons var rest ih =>
    intro _
    unfold print_regions
    cases rest with
    | nil => unfold print_regions; rw [print_region_eq]; exact ⟨rfl, rfl⟩
    | cons v2 r2 => exact ih (print_region var cout) (List.cons_ne_nil _ _)

/-- In base 16 without `showbase`, a value that fits an `int` and is not negative
is printed as its hexadecimal digits. -/
theorem format_hex_plain {v : Int} (h0 : 0 ≤ v) (h1 : v < 2 ^ 32) :
    format_int .hex false v = hex_digits v.toNat := by
  unfold format_int
  simp only [Bool.false_and, Bool.false_eq_true, if_false]
  rw [Int.emod_eq_of_lt h0 h1]

/-- In base 16 with `showbase`, a positive value is printed with the mark `0x` and
the value 0 as the single digit `0`. -/
theorem format_hex_showbase {v : Int} (h0 : 0 ≤ v) (h1 : v < 2 ^ 32) :
    format_int .hex true v = if v = 0 then "0" else "0x" ++ hex_digits v.toNat := by
  unfold format_int
  simp only [Bool.true_and]
  rw [Int.emod_eq_of_lt h0 h1]
  by_cases hz : v = 0
  · subst hz; decide
  · have : v.toNat ≠ 0 := by omega
    simp [hz, this]

/-- A successful `get_region` has read a descriptor word and returns the record
built from its two 15-bit fields. -/
theorem get_region_ok_arith {bios_image : List UInt8} {frba t : Nat} {var : region_t}
    (h : get_region bios_image frba t = .ok var) :
    t < 9 ∧ ∃ w : Nat, load_u32 bios_image (frba + 4 * t) = .ok w ∧
      var = { base := ((w % 32768 * 4096 : Nat) : Int)
              limit := ((w / 65536 % 32768 * 4096 + 4095 : Nat) : Int)
              size := if w % 32768 ≤ w / 65536 % 32768
                then (((w / 65536 % 32768 - w % 32768 + 1) * 4096 : Nat) : Int) else 0
              name := (region_names.getD t ("", "")).2 } := by
  have ht := (get_region_name h).1
  refine ⟨ht, ?_⟩
  cases hw : load_u32 bios_image (frba + 4 * t) with
  | error e =>
    unfold get_region at h
    simp only [ge_iff_le, Nat.not_le.mpr (show t < MAX_REGIONS from ht), if_false, hw] at h
    exact Except.noConfusion h
  | ok w =>
    rw [get_region_arith bios_image frba t w ht hw] at h
    exact ⟨w, rfl, (Except.ok.inj h).symm⟩

theorem detect_regions_mem (bios_image : List UInt8) (frba : Nat) :
    ∀ (ts : List Nat) (detected out : List region_t),
      detect_regions bios_image frba ts detected = .ok out →
      ∀ region ∈ out, region ∈ detected ∨
        ∃ t ∈ ts, get_region bios_image frba t = .ok region
  | [], detected, out => fun h region hr => by
    have e : detected = out := Except.ok.inj h
    rw [e]; exact Or.inl hr
  | t :: ts, detected, out => fun h region hr => by
    unfold detect_regions at h
    cases hg : get_region bios_image frba t with
    | error e => rw [hg] at h; exact Except.noConfusion h
    | ok r =>
      rw [hg] at h
      by_cases hs : r.size < 1
      · simp only [hs, if_true] at h
        rcases detect_regions_mem bios_image frba ts detected out h region hr with h1 | ⟨u, hu, h1⟩
        · exact Or.inl h1
        · exact Or.inr ⟨u, List.mem_cons_of_mem _ hu, h1⟩
      · simp only [hs, if_false] at h
        rcases detect_regions_mem bios_image frba ts _ out h region hr with h1 | ⟨u, hu, h1⟩
        · rcases List.mem_append.mp h1 with h2 | h2
          · exact Or.inl h2
          · rw [List.mem_singleton.mp h2]
            exact Or.inr ⟨t, List.mem_cons_self _ _, hg⟩
        · exact Or.inr ⟨u, List.mem_cons_of_mem _ hu, h1⟩

/-- Every reported region is the result of `get_region` for one of the 9 region
types. -/
theorem dump_frba_layout_mem {bios_image : List UInt8} {frba : Nat} {rows : List region_t}
    (h : dump_frba_layout bios_image frba = .ok rows) {var : region_t} (hv : var ∈ rows) :
    ∃ t : Nat, t < 9 ∧ get_region bios_image frba t = .ok var := by
  unfold dump_frba_layout at h
  cases hd : detect_regions bios_image frba (List.range MAX_REGIONS) [] with
  | error e => rw [hd] at h; exact Except.noConfusion h
  | ok detected =>
    rw [hd] at h
    have e : list_sort compare_base detected = rows := Except.ok.inj h
    rw [← e] at hv
    have hm := (list_sort_perm compare_base detected).mem_iff.mp hv
    rcases detect_regions_mem bios_image frba _ [] detected hd var hm with h1 | ⟨t, ht, h1⟩
    · exact absurd h1 (List.not_mem_nil _)
    · exact ⟨t, List.mem_range.mp ht, h1⟩

/-- The shape of a reported region: with `B <= L` the two 15-bit fields of its
descriptor word, `base = B * 4096`, `limit = L * 4096 + 4095` and
`size = (L - B + 1) * 4096`. -/
theorem reported_shape {bios_image : List UInt8} {frba : Nat} {rows : List region_t}
    (h : dump_frba_layout bios_image frba = .ok rows) {var : region_t} (hv : var ∈ rows) :
    ∃ B L : Nat, B ≤ L ∧ L < 32768 ∧ var.base = ((B * 4096 : Nat) : Int) ∧
      var.limit = ((L * 4096 + 4095 : Nat) : Int) ∧
      var.size = (((L - B + 1) * 4096 : Nat) : Int) := by
  obtain ⟨t, -, hg⟩ := dump_frba_layout_mem h hv
  obtain ⟨-, w, -, hvar⟩ := get_region_ok_arith hg
  have hs := dump_frba_layout_size h var hv
  have hL : w / 65536 % 32768 < 32768 := Nat.mod_lt _ (by norm_num)
  by_cases hBL : w % 32768 ≤ w / 65536 % 32768
  · refine ⟨w % 32768, w / 65536 % 32768, hBL, hL, ?_, ?_, ?_⟩
    · rw [hvar]
    · rw [hvar]
    · rw [hvar]; simp only [hBL, if_true]
  · rw [hvar] at hs
    simp only [hBL, if_false] at hs
    omega

/-! ## Settled properties of the decoder, the catalog and the report -/

/-- C11, as stated, fails: for the descriptor word `0x00100000` at region type BIOS
the decoded limit is `0x10FFF` (not `0xFFF`), the size is `0x11000` (not
`0x1000`), and the size line of the report is `BIOS = 0MB` (not `BIOS = 4Kb`). -/
theorem bios_word_counterexample :
    load_u32 bios_only_image (16 + 4 * 1) = .ok 0x00100000 ∧
    get_region bios_only_image 16 1 = .ok ⟨0x0, 0x10FFF, 0x11000, "BIOS"⟩ ∧
    get_region bios_only_image 16 1 ≠ .ok ⟨0x0, 0xFFF, 0x1000, "BIOS"⟩ ∧
    dump_frba_layout_cout bios_only_image 16 cout_initial =
      .ok ⟨.hex, true, "-------------- 0\nBIOS = 0MB\n-------------- 0x10fff\n\n"⟩ := by
  decide

/-- C11, amended: for the descriptor word `0x00100000` stored at region type BIOS
(index 1), `get_region` decodes `base = 0x0`, `limit = 0x10FFF` and
`size = 0x11000` (69632 bytes), and the report renders this region with the size
line `BIOS = 0MB`. -/
theorem bios_word_decoded (bios_image : List UInt8) (frba : Nat) (cout : ostream)
    (hw : load_u32 bios_image (frba + 4 * 1) = .ok 0x00100000) :
    get_region bios_image frba 1 = .ok ⟨0x0, 0x10FFF, 0x11000, "BIOS"⟩ ∧
    size_field ⟨0x0, 0x10FFF, 0x11000, "BIOS"⟩ = (0, "MB") ∧
    (print_region ⟨0x0, 0x10FFF, 0x11000, "BIOS"⟩ cout).text =
      cout.text ++ "-------------- 0\nBIOS = 0MB\n-------------- 0x10fff\n\n" := by
  refine ⟨?_, by decide, ?_⟩
  · rw [get_region_arith bios_image frba 1 0x00100000 (by decide) hw]
    decide
  · rw [print_region_eq]
    show cout.text ++ _ = cout.text ++ _
    congr 1

theorem bios_word_decoded_witness :
    load_u32 bios_only_image (16 + 4 * 1) = .ok 0x00100000 ∧
    (get_region bios_only_image 16 1 = .ok ⟨0x0, 0x10FFF, 0x11000, "BIOS"⟩ ∧
      size_field ⟨0x0, 0x10FFF, 0x11000, "BIOS"⟩ = (0, "MB") ∧
      (print_region ⟨0x0, 0x10FFF, 0x11000, "BIOS"⟩ cout_initial).text =
        cout_initial.text ++ "-------------- 0\nBIOS = 0MB\n-------------- 0x10fff\n\n") :=
  ⟨by decide, bios_word_decoded bios_only_image 16 cout_initial (by decide)⟩

theorem str_rule_0 : ("-------------- " ++ "0" : String) = "-------------- 0" := by decide

/-- The size value and unit of a region of positive size, with the divisions as
floor divisions of natural numbers. -/
theorem size_field_nat {var : region_t} (h1 : 1 ≤ var.size) :
    size_field var =
      (if var.size < 10000 then (((var.size.toNat / 1024 : Nat) : Int), "Kb")
        else (((var.size.toNat / 1024 / 1024 : Nat) : Int), "MB")) := by
  have e1 : Int.tdiv var.size 1024 = ((var.size.toNat / 1024 : Nat) : Int) := by
    rw [Int.tdiv_eq_ediv (by omega) (by norm_num)]
    omega
  have e2 : Int.tdiv (Int.tdiv var.size 1024) 1024
      = ((var.size.toNat / 1024 / 1024 : Nat) : Int) := by
    rw [e1, Int.tdiv_eq_ediv (by omega) (by norm_num)]
    omega
  unfold size_field
  rw [e2, e1]

theorem size_field_bounds {var : region_t} (h1 : 1 ≤ var.size) :
    0 ≤ (size_field var).1 ∧ (size_field var).1 ≤ var.size / 1024 := by
  rw [size_field_nat h1]
  split_ifs <;> simp only <;> omega

/-- The text that the loop body adds for a reported region. -/
theorem print_region_reported {bios_image : List UInt8} {frba : Nat} {rows : List region_t}
    (h : dump_frba_layout bios_image frba = .ok rows) {var : region_t} (hv : var ∈ rows)
    (cout : ostream) :
    (print_region var cout).text = cout.text ++
      ((if var.base = 0 then "-------------- 0"
          else "-------------- 0x" ++ hex_digits var.base.toNat) ++ "\n"
        ++ var.name ++ " = " ++ hex_digits (size_field var).1.toNat
        ++ (size_field var).2 ++ "\n"
        ++ "-------------- 0x" ++ hex_digits var.limit.toNat ++ "\n" ++ "\n") := by
  obtain ⟨B, L, hBL, hL, hb, hl, hs⟩ := reported_shape h hv
  have h1 := dump_frba_layout_size h var hv
  obtain ⟨hn0, hn1⟩ := size_field_bounds h1
  have hlim0 : var.limit ≠ 0 := by omega
  rw [print_region_eq,
    format_hex_showbase (show 0 ≤ var.base by omega) (show var.base < 2 ^ 32 by norm_num; omega),
    format_hex_showbase (show 0 ≤ var.limit by omega)
      (show var.limit < 2 ^ 32 by norm_num; omega),
    format_hex_plain hn0 (show (size_field var).1 < 2 ^ 32 by norm_num; omega)]
  simp only [hlim0, if_false]
  by_cases hb0 : var.base = 0
  · simp only [hb0, if_true, ← str_rule_0, ← str_rule_0x, String.append_assoc]
  · simp only [hb0, if_false, ← str_rule_0x, String.append_assoc]

set_option maxRecDepth 20000

/-- C12, as stated, fails for a region whose base is 0: the region FD of
`sample_image` is reported, and its first line is `-------------- 0`, without the
mark `0x`. -/
theorem report_text_counterexample :
    dump_frba_layout sample_image 32 =
      .ok [⟨0, 8191, 8192, "EC"⟩, ⟨0, 4095, 4096, "FD"⟩, ⟨4096, 65535, 61440, "ME"⟩,
        ⟨65536, 1048575, 983040, "BIOS"⟩] ∧
    (print_region ⟨0, 4095, 4096, "FD"⟩ cout_initial).text =
      "-------------- 0\nFD = 4Kb\n-------------- 0xfff\n\n" ∧
    (print_region ⟨0, 4095, 4096, "FD"⟩ cout_initial).text ≠
      "-------------- 0x" ++ hex_digits 0 ++ "\nFD = 4Kb\n-------------- 0xfff\n\n" ∧
    dump_frba_layout_cout sample_image 32 cout_initial =
      .ok ⟨.hex, true,
        "-------------- 0\nEC = 8Kb\n-------------- 0x1fff\n\n" ++
        "-------------- 0\nFD = 4Kb\n-------------- 0xfff\n\n" ++
        "-------------- 0x1000\nME = 0MB\n-------------- 0xffff\n\n" ++
        "-------------- 0x10000\nBIOS = 0MB\n-------------- 0xfffff\n\n"⟩ := by
  decide

theorem region_name_short_eq {t : Nat} (ht : t < 9) :
    region_name_short t = .ok (region_names.getD t ("", "")).2 := by
  unfold region_name_short
  rw [if_neg (Nat.not_le.mpr (show t < MAX_REGIONS from ht))]

theorem short_name_at {t : Nat} (ht : t < 9) :
    (region_names.getD t ("", "")).2 =
      (["FD", "BIOS", "ME", "GbE", "PD", "RES1", "RES2", "RES3", "EC"] : List String).getD t "" := by
  have h : ∀ u, u < 9 → (region_names.getD u ("", "")).2 =
      (["FD", "BIOS", "ME", "GbE", "PD", "RES1", "RES2", "RES3", "EC"] : List String).getD u "" := by
    decide
  exact h t ht

/-- C13: for every region type `t` in `0 .. 8`, `region_name_short (t)` and the
name attached by `get_region` to the decoded region both equal the short name of
the catalog for index `t`, in the order FD, BIOS, ME, GbE, PD, RES1, RES2, RES3,
EC; the full names of the table are Flash Descriptor, BIOS, Intel ME, GbE,
Platform Data, Reserved_1, Reserved_2, Reserved_3, EC. -/
theorem region_names_catalog (bios_image : List UInt8) (frba t : Nat) (ht : t < 9)
    (hfit : frba + 36 ≤ bios_image.length) :
    region_name_short t =
      .ok ((["FD", "BIOS", "ME", "GbE", "PD", "RES1", "RES2", "RES3", "EC"] :
        List String).getD t "") ∧
    (∃ region : region_t, get_region bios_image frba t = .ok region ∧
      region.name = (["FD", "BIOS", "ME", "GbE", "PD", "RES1", "RES2", "RES3", "EC"] :
        List String).getD t "") ∧
    region_names.map (fun names => names.2) =
      ["FD", "BIOS", "ME", "GbE", "PD", "RES1", "RES2", "RES3", "EC"] ∧
    region_names.map (fun names => names.1) =
      ["Flash Descriptor", "BIOS", "Intel ME", "GbE", "Platform Data", "Reserved_1",
        "Reserved_2", "Reserved_3", "EC"] := by
  refine ⟨?_, ?_, by decide, by decide⟩
  · rw [region_name_short_eq ht, short_name_at ht]
  · obtain ⟨region, hr⟩ := get_region_total hfit ht
    exact ⟨region, hr, by rw [(get_region_name hr).2, short_name_at ht]⟩

theorem region_names_catalog_witness :
    (3 < 9 ∧ 32 + 36 ≤ sample_image.length) ∧
    region_name_short 3 = .ok "GbE" ∧
    (∃ region : region_t, get_region sample_image 32 3 = .ok region ∧ region.name = "GbE") :=
  ⟨by decide, (region_names_catalog sample_image 32 3 (by decide) (by decide)).1,
    (region_names_catalog sample_image 32 3 (by decide) (by decide)).2.1⟩

/-- C14: `get_region` and `region_name_short` fail with `InvalidRegionType` exactly
when `region_type >= 9`.  In that case `get_region` fails before it reads a word
of the region table: the failure is the same for every image and table offset,
also where no word can be read (the empty image).  For every `region_type < 9`
`region_name_short` succeeds, and `get_region` succeeds on every region table
that lies in the image. -/
theorem invalid_region_type (bios_image : List UInt8) (frba region_type : Nat) :
    (get_region bios_image frba region_type = .error .InvalidRegionType ↔ 9 ≤ region_type) ∧
    (region_name_short region_type = .error .InvalidRegionType ↔ 9 ≤ region_type) ∧
    (9 ≤ region_type →
      get_region [] frba region_type = .error .InvalidRegionType ∧
      get_region bios_image frba region_type = get_region [] 0 region_type) ∧
    (region_type < 9 →
      (∃ name : String, region_name_short region_type = .ok name) ∧
      (frba + 36 ≤ bios_image.length →
        ∃ region : region_t, get_region bios_image frba region_type = .ok region)) := by
  have hge : ∀ (img : List UInt8) (f : Nat), 9 ≤ region_type →
      get_region img f region_type = .error .InvalidRegionType := by
    intro img f h9
    unfold get_region
    simp only [ge_iff_le, show MAX_REGIONS ≤ region_type from h9, if_true]
  refine ⟨⟨?_, hge bios_image frba⟩, ⟨?_, ?_⟩, ?_, ?_⟩
  · intro h
    by_contra hlt
    have ht : region_type < MAX_REGIONS := Nat.not_le.mp hlt
    unfold get_region at h
    simp only [ge_iff_le, Nat.not_le.mpr ht, if_false] at h
    cases hw : load_u32 bios_image (frba + 4 * region_type) with
    | error e =>
      have hwild : e = Fault.WildRead := by
        unfold load_u32 at hw
        split_ifs at hw
        exact (Except.error.inj hw).symm
      rw [hw, hwild] at h
      exact absurd (Except.error.inj h) (by decide)
    | ok w => rw [hw] at h; exact Except.noConfusion h
  · intro h
    by_contra hlt
    rw [region_name_short_eq (Nat.not_le.mp hlt)] at h
    exact Except.noConfusion h
  · intro h9
    unfold region_name_short
    rw [if_pos (show region_type ≥ MAX_REGIONS from h9)]
  · intro h9
    exact ⟨hge [] frba h9, by rw [hge bios_image frba h9, hge [] 0 h9]⟩
  · intro hlt
    exact ⟨⟨_, region_name_short_eq hlt⟩, fun hfit => get_region_total hfit hlt⟩

theorem invalid_region_type_witness :
    (9 ≤ 9 ∧ get_region [] 32 9 = .error .InvalidRegionType ∧
      get_region sample_image 32 9 = get_region [] 0 9) ∧
    (8 < 9 ∧ (∃ name : String, region_name_short 8 = .ok name) ∧
      (32 + 36 ≤ sample_image.length →
        ∃ region : region_t, get_region sample_image 32 8 = .ok region)) :=
  ⟨⟨by decide, (invalid_region_type sample_image 32 9).2.2.1 (by decide)⟩,
    ⟨by decide, (invalid_region_type sample_image 32 8).2.2.2 (by decide)⟩⟩

/-- C15: `compare_base` is not a strict weak ordering.  For all regions `a` and
`b`, `compare_base (a, b)` is true exactly when `a.base <= b.base`; so
`compare_base (a, a)` is true for every `a` (irreflexivity fails), and for two
regions with equal base both `compare_base (a, b)` and `compare_base (b, a)` are
true (asymmetry fails). -/
theorem compare_base_not_strict :
    (∀ a b : region_t, compare_base a b = true ↔ a.base ≤ b.base) ∧
    (∀ a : region_t, compare_base a a = true) ∧
    (∀ a b : region_t, a.base = b.base →
      compare_base a b = true ∧ compare_base b a = true) ∧
    ¬ IsStrictWeakOrder region_t (fun a b => compare_base a b = true) := by
  refine ⟨compare_base_iff, ?_, ?_, ?_⟩
  · intro a; rw [compare_base_iff]
  · intro a b hab
    rw [compare_base_iff, compare_base_iff]
    omega
  · intro hsw
    have hirr := hsw.toIsStrictOrder.toIsIrrefl.irrefl ⟨0, 0, 0, ""⟩
    exact hirr (by decide)

theorem compare_base_not_strict_witness :
    ((⟨0, 4095, 4096, "FD"⟩ : region_t).base = (⟨0, 8191, 8192, "EC"⟩ : region_t).base) ∧
    compare_base ⟨0, 4095, 4096, "FD"⟩ ⟨0, 8191, 8192, "EC"⟩ = true ∧
    compare_base ⟨0, 8191, 8192, "EC"⟩ ⟨0, 4095, 4096, "FD"⟩ = true :=
  ⟨by decide, compare_base_not_strict.2.2.1 ⟨0, 4095, 4096, "FD"⟩ ⟨0, 8191, 8192, "EC"⟩
    (by decide)⟩

/-- The modelled sort puts the second of two regions with equal base first. -/
theorem list_sort_pair_swaps (a b : region_t) (h : a.base = b.base) :
    list_sort compare_base [a, b] = [b, a] := by
  have hc : compare_base b a = true := (compare_base_iff b a).mpr (by omega)
  simp [list_sort, sort_fill, sort_carry, sort_collapse, list_merge, list_merge.mergeInto, hc]

/-- C16 fails on the code: in `sample_image` the regions FD (type 0) and EC
(type 8) both have base 0 and are collected in this order, yet the report lists
EC before FD; the sort with `compare_base` swaps two regions of equal base. -/
theorem equal_base_order_reversed :
    detect_regions sample_image 32 (List.range MAX_REGIONS) [] =
      .ok [⟨0, 4095, 4096, "FD"⟩, ⟨65536, 1048575, 983040, "BIOS"⟩,
        ⟨4096, 65535, 61440, "ME"⟩, ⟨0, 8191, 8192, "EC"⟩] ∧
    dump_layout ifdtool_fdbar sample_image =
      .ok [⟨0, 8191, 8192, "EC"⟩, ⟨0, 4095, 4096, "FD"⟩, ⟨4096, 65535, 61440, "ME"⟩,
        ⟨65536, 1048575, 983040, "BIOS"⟩] ∧
    list_sort compare_base [⟨0, 4095, 4096, "FD"⟩, ⟨0, 8191, 8192, "EC"⟩] =
      [⟨0, 8191, 8192, "EC"⟩, ⟨0, 4095, 4096, "FD"⟩] := by
  decide

theorem and_base_mask (w : Nat) : w &&& 0x7FFF = w % 32768 := by
  rw [show (0x7FFF : Nat) = 2 ^ 15 - 1 from rfl, Nat.and_pow_two_sub_one_eq_mod]

theorem shift_and_limit (w : Nat) : (w >>> 16) &&& 0x7FFF = w / 65536 % 32768 := by
  rw [and_base_mask, Nat.shiftRight_eq_div_pow]

/-- Clearing bits 15 and 31 of a word changes neither of its 15-bit fields. -/
theorem fields_of_masked (w : Nat) :
    (w &&& 0x7FFF7FFF) % 32768 = w % 32768 ∧
    (w &&& 0x7FFF7FFF) / 65536 % 32768 = w / 65536 % 32768 := by
  constructor
  · rw [← and_base_mask, Nat.and_assoc, ← and_base_mask]
    rfl
  · have h := and_limit_mask (w &&& 0x7FFF7FFF)
    rw [Nat.and_assoc, show (0x7FFF7FFF &&& (0x7fff <<< 16) : Nat) = 0x7fff <<< 16 from by decide,
      and_limit_mask] at h
    omega

/-- C17: for every descriptor word `w`, with `B = w & 0x7FFF` and
`L = (w >> 16) & 0x7FFF`, `get_region` reports the region as present
(`size >= 1`) if and only if `L >= B`, in which case `size = (L - B + 1) * 4096`;
otherwise `size = 0`.  Bits 15 and 31 of `w` never affect the result: two words
that agree on all other bits are decoded to the same region. -/
theorem get_region_fields (bios_image : List UInt8) (frba t w : Nat) (ht : t < 9)
    (hw : load_u32 bios_image (frba + 4 * t) = .ok w) :
    ∃ region : region_t, get_region bios_image frba t = .ok region ∧
      (1 ≤ region.size ↔ w &&& 0x7FFF ≤ (w >>> 16) &&& 0x7FFF) ∧
      (w &&& 0x7FFF ≤ (w >>> 16) &&& 0x7FFF →
        region.size = ((((w >>> 16) &&& 0x7FFF) - (w &&& 0x7FFF) + 1) * 4096 : Nat)) ∧
      (¬ w &&& 0x7FFF ≤ (w >>> 16) &&& 0x7FFF → region.size = 0) ∧
      ∀ (other_image : List UInt8) (other_frba v : Nat),
        load_u32 other_image (other_frba + 4 * t) = .ok v →
        v &&& 0x7FFF7FFF = w &&& 0x7FFF7FFF →
        get_region other_image other_frba t = .ok region := by
  refine ⟨_, get_region_arith bios_image frba t w ht hw, ?_, ?_, ?_, ?_⟩
  · rw [and_base_mask, shift_and_limit]
    simp only
    split_ifs with h
    · simp only [h, iff_true]; push_cast; omega
    · simp only [h, iff_false]; omega
  · rw [and_base_mask, shift_and_limit]
    intro h
    simp only [h, if_true]
  · rw [and_base_mask, shift_and_limit]
    intro h
    simp only [h, if_false]
  · intro other_image other_frba v hv hmask
    rw [get_region_arith other_image other_frba t v ht hv]
    have h1 := fields_of_masked v
    have h2 := fields_of_masked w
    rw [hmask] at h1
    rw [← h1.1, ← h1.2, h2.1, h2.2]

theorem get_region_fields_witness :
    (2 < 9 ∧ load_u32 sample_image (32 + 4 * 2) = .ok 0x000F0001) ∧
    ∃ region : region_t, get_region sample_image 32 2 = .ok region ∧
      (1 ≤ region.size ↔ 0x000F0001 &&& 0x7FFF ≤ (0x000F0001 >>> 16) &&& 0x7FFF) ∧
      (0x000F0001 &&& 0x7FFF ≤ (0x000F0001 >>> 16) &&& 0x7FFF →
        region.size =
          ((((0x000F0001 >>> 16) &&& 0x7FFF) - (0x000F0001 &&& 0x7FFF) + 1) * 4096 : Nat)) ∧
      (¬ 0x000F0001 &&& 0x7FFF ≤ (0x000F0001 >>> 16) &&& 0x7FFF → region.size = 0) ∧
      ∀ (other_image : List UInt8) (other_frba v : Nat),
        load_u32 other_image (other_frba + 4 * 2) = .ok v →
        v &&& 0x7FFF7FFF = 0x000F0001 &&& 0x7FFF7FFF →
        get_region other_image other_frba 2 = .ok region :=
  ⟨by decide, get_region_fields sample_image 32 2 0x000F0001 (by decide) (by decide)⟩

theorem hex_dec_small : ∀ n, n < 129 → (hex_digits n = dec_digits n ↔ n < 10) := by
  decide

/-- C20: for every descriptor word, the arithmetic of `get_region` never wraps a
32-bit integer: the shifted base field fits `uint32_t` and both fields fit `int`,
`0 <= base <= 0x7FFF000`, `0xFFF <= limit <= 0x7FFFFFF`, the unclamped value
`limit - base + 1` lies in `[-0x7FFE000, 0x8000000]` and is not changed by the
wrap-around of `int`, and the returned size lies in `[0, 0x8000000]`. -/
theorem get_region_no_wrap (bios_image : List UInt8) (frba t w : Nat) (ht : t < 9)
    (hw : load_u32 bios_image (frba + 4 * t) = .ok w) :
    u32 ((w &&& 0x7fff) <<< 12) = (w &&& 0x7fff) <<< 12 ∧
    to_int ((w &&& 0x7fff) <<< 12) = (((w &&& 0x7fff) <<< 12 : Nat) : Int) ∧
    to_int (((w &&& (0x7fff <<< 16)) >>> 4) ||| 0xfff) =
      ((((w &&& (0x7fff <<< 16)) >>> 4) ||| 0xfff : Nat) : Int) ∧
    ∃ region : region_t, get_region bios_image frba t = .ok region ∧
      0 ≤ region.base ∧ region.base ≤ 0x7FFF000 ∧
      0xFFF ≤ region.limit ∧ region.limit ≤ 0x7FFFFFF ∧
      -0x7FFE000 ≤ region.limit - region.base + 1 ∧
      region.limit - region.base + 1 ≤ 0x8000000 ∧
      wrap_int (region.limit - region.base + 1) = region.limit - region.base + 1 ∧
      0 ≤ region.size ∧ region.size ≤ 0x8000000 := by
  have hB : w % 32768 < 32768 := Nat.mod_lt _ (by norm_num)
  have hL : w / 65536 % 32768 < 32768 := Nat.mod_lt _ (by norm_num)
  refine ⟨?_, ?_, ?_, _, get_region_arith bios_image frba t w ht hw, ?_⟩
  · rw [base_field_eq]
    unfold u32
    apply Nat.mod_eq_of_lt
    omega
  · rw [base_field_eq]
    apply to_int_of_lt
    omega
  · rw [limit_field_eq]
    apply to_int_of_lt
    omega
  · simp only
    refine ⟨by omega, by omega, by omega, by omega, by omega, by omega, ?_, ?_, ?_⟩
    · apply wrap_int_of_fits <;> norm_num <;> omega
    · split_ifs <;> omega
    · split_ifs
      · push_cast; omega
      · omega

theorem get_region_no_wrap_witness :
    (3 < 9 ∧ load_u32 sample_image (32 + 4 * 3) = .ok 0x00007FFF) ∧
    (u32 ((0x00007FFF &&& 0x7fff) <<< 12) = (0x00007FFF &&& 0x7fff) <<< 12 ∧
    to_int ((0x00007FFF &&& 0x7fff) <<< 12) = (((0x00007FFF &&& 0x7fff) <<< 12 : Nat) : Int) ∧
    to_int (((0x00007FFF &&& (0x7fff <<< 16)) >>> 4) ||| 0xfff) =
      ((((0x00007FFF &&& (0x7fff <<< 16)) >>> 4) ||| 0xfff : Nat) : Int) ∧
    ∃ region : region_t, get_region sample_image 32 3 = .ok region ∧
      0 ≤ region.base ∧ region.base ≤ 0x7FFF000 ∧
      0xFFF ≤ region.limit ∧ region.limit ≤ 0x7FFFFFF ∧
      -0x7FFE000 ≤ region.limit - region.base + 1 ∧
      region.limit - region.base + 1 ≤ 0x8000000 ∧
      wrap_int (region.limit - region.base + 1) = region.limit - region.base + 1 ∧
      0 ≤ region.size ∧ region.size ≤ 0x8000000) :=
  ⟨by decide, get_region_no_wrap sample_image 32 3 0x00007FFF (by decide) (by decide)⟩

/-! ## The whole text written by `dump_frba_layout` -/

theorem foldl_append_eq (l : List String) :
    ∀ acc : String, List.foldl (fun r s => r ++ s) acc l =
      acc ++ List.foldl (fun r s => r ++ s) "" l := by
  induction l with
  | nil => intro acc; simp
  | cons a l ih =>
    intro acc
    rw [List.foldl_cons, List.foldl_cons, ih (acc ++ a), ih ("" ++ a), String.empty_append,
      String.append_assoc]

theorem string_join_cons (a : String) (l : List String) :
    String.join (a :: l) = a ++ String.join l := by
  unfold String.join
  rw [List.foldl_cons, foldl_append_eq l ("" ++ a), String.empty_append]

/-- A loop that runs `body` over the rows in order writes the texts of the rows
one after the other: if `body` adds the text `line var` to the stream for each
row, the loop adds the concatenation of these texts in the order of the rows. -/
theorem loop_text (body : region_t → ostream → ostream)
    (loop : List region_t → ostream → ostream)
    (hnil : ∀ c, loop [] c = c)
    (hcons : ∀ var rest c, loop (var :: rest) c = loop rest (body var c))
    (line : region_t → String) :
    ∀ (rows : List region_t) (cout : ostream),
      (∀ var ∈ rows, ∀ c : ostream, (body var c).text = c.text ++ line var) →
      (loop rows cout).text = cout.text ++ String.join (rows.map line)
  | [], cout, _ => by
    rw [hnil]
    simp [String.join]
  | var :: rest, cout, h => by
    rw [hcons, loop_text body loop hnil hcons line rest (body var cout)
        (fun v hv c => h v (List.mem_cons_of_mem _ hv) c),
      h var (List.mem_cons_self _ _) cout, List.map_cons, string_join_cons,
      String.append_assoc]

/-- The first line of a row: with `showbase` the value 0 has no mark `0x`. -/
theorem base_text_eq {v : Int} (h0 : 0 ≤ v) (h1 : v < 2 ^ 32) :
    "-------------- " ++ format_int .hex true v =
      if v = 0 then "-------------- 0" else "-------------- 0x" ++ hex_digits v.toNat := by
  rw [format_hex_showbase h0 h1]
  split_ifs
  · exact str_rule_0
  · rw [← str_rule_0x, String.append_assoc]

/-- The third line of a row: the limit is positive and carries the mark `0x`. -/
theorem limit_text_eq {v : Int} (h0 : 0 < v) (h1 : v < 2 ^ 32) :
    "-------------- " ++ format_int .hex true v = "-------------- 0x" ++ hex_digits v.toNat := by
  rw [base_text_eq (by omega) h1, if_neg (by omega)]

theorem tdiv_floor {z : Int} (h : 0 ≤ z) :
    Int.tdiv z 1024 = ((z.toNat / 1024 : Nat) : Int) := by
  rw [Int.tdiv_eq_ediv h (by norm_num)]
  omega

/-- Bounds on the fields of a reported region. -/
theorem reported_bounds {bios_image : List UInt8} {frba : Nat} {rows : List region_t}
    (h : dump_frba_layout bios_image frba = .ok rows) {var : region_t} (hv : var ∈ rows) :
    0 ≤ var.base ∧ var.base < 2 ^ 32 ∧ 0 < var.limit ∧ var.limit < 2 ^ 32 ∧
      (var.size = 4096 ∨ var.size = 8192 ∨ 12288 ≤ var.size) ∧ var.size ≤ 134217728 := by
  obtain ⟨B, L, hBL, hL, hb, hl, hs⟩ := reported_shape h hv
  push_cast at hb hl hs
  norm_num
  omega

/-- C10: for every reported region, the size value and the unit of its row in
the text written by `dump_frba_layout` are `size / 1024` with unit "Kb" when
`size < 10000`, and otherwise `(size / 1024) / 1024` with unit "MB".  Both
divisions truncate; the size of a reported region is positive, so they are the
floor divisions of natural numbers. -/
theorem report_size_value_unit (bios_image : List UInt8) (frba : Nat) (rows : List region_t)
    (cout : ostream) (h : dump_frba_layout bios_image frba = .ok rows) :
    (∃ os : ostream, dump_frba_layout_cout bios_image frba cout = .ok os ∧
      os.text = cout.text ++ String.join (rows.map (fun var =>
        "-------------- " ++ format_int .hex true var.base ++ "\n"
        ++ var.name ++ " = "
        ++ (format_int .hex false
              (if var.size < 10000 then Int.tdiv var.size 1024
                else Int.tdiv (Int.tdiv var.size 1024) 1024)
            ++ (if var.size < 10000 then "Kb" else "MB")) ++ "\n"
        ++ "-------------- " ++ format_int .hex true var.limit ++ "\n" ++ "\n"))) ∧
    ∀ var ∈ rows, 1 ≤ var.size ∧
      Int.tdiv var.size 1024 = ((var.size.toNat / 1024 : Nat) : Int) ∧
      Int.tdiv (Int.tdiv var.size 1024) 1024 = ((var.size.toNat / 1024 / 1024 : Nat) : Int) ∧
      size_field var =
        (if var.size < 10000 then Int.tdiv var.size 1024
          else Int.tdiv (Int.tdiv var.size 1024) 1024,
         if var.size < 10000 then "Kb" else "MB") := by
  refine ⟨⟨print_regions rows cout, ?_, ?_⟩, ?_⟩
  · unfold dump_frba_layout_cout
    rw [h]
  · apply loop_text print_region print_regions (fun _ => rfl) (fun _ _ _ => rfl)
    intro var _ c
    unfold print_region
    by_cases hlt : var.size < 10000
    · simp only [hlt, if_true, put_str, put_int, hex, showbase, noshowbase, endl,
        String.append_assoc, ← str_rule]
    · simp only [hlt, if_false, put_str, put_int, hex, showbase, noshowbase, endl,
        String.append_assoc, ← str_rule]
  · intro var hv
    have h1 := dump_frba_layout_size h var hv
    have e1 := tdiv_floor (show 0 ≤ var.size by omega)
    refine ⟨h1, e1, ?_, ?_⟩
    · rw [e1, tdiv_floor (by omega)]
      congr 1
    · unfold size_field
      split_ifs <;> rfl

theorem report_size_value_unit_witness :
    dump_frba_layout sample_image 32 =
      .ok [⟨0, 8191, 8192, "EC"⟩, ⟨0, 4095, 4096, "FD"⟩, ⟨4096, 65535, 61440, "ME"⟩,
        ⟨65536, 1048575, 983040, "BIOS"⟩] ∧
    (∃ os : ostream, dump_frba_layout_cout sample_image 32 cout_initial = .ok os ∧
      os.text =
        "-------------- 0\nEC = 8Kb\n-------------- 0x1fff\n\n" ++
        "-------------- 0\nFD = 4Kb\n-------------- 0xfff\n\n" ++
        "-------------- 0x1000\nME = 0MB\n-------------- 0xffff\n\n" ++
        "-------------- 0x10000\nBIOS = 0MB\n-------------- 0xfffff\n\n") ∧
    dump_frba_layout_cout sample_image 32 cout_initial =
      .ok ⟨.hex, true,
        "-------------- 0\nEC = 8Kb\n-------------- 0x1fff\n\n" ++
        "-------------- 0\nFD = 4Kb\n-------------- 0xfff\n\n" ++
        "-------------- 0x1000\nME = 0MB\n-------------- 0xffff\n\n" ++
        "-------------- 0x10000\nBIOS = 0MB\n-------------- 0xfffff\n\n"⟩ ∧
    size_field ⟨4096, 65535, 61440, "ME"⟩ = (0, "MB") :=
  have hrows : dump_frba_layout sample_image 32 =
      .ok [⟨0, 8191, 8192, "EC"⟩, ⟨0, 4095, 4096, "FD"⟩, ⟨4096, 65535, 61440, "ME"⟩,
        ⟨65536, 1048575, 983040, "BIOS"⟩] := by decide
  have hthm := report_size_value_unit sample_image 32 _ cout_initial hrows
  ⟨hrows,
    hthm.1.elim (fun os hos => ⟨os, hos.1, hos.2.trans (by decide)⟩),
    by decide,
    (hthm.2 ⟨4096, 65535, 61440, "ME"⟩ (by decide)).2.2.2⟩

/-- The size value in base 16 without `showbase`: the digits of the floor
quotient. -/
theorem size_value_hex {z : Int} (h1 : 1 ≤ z) (h2 : z < 2 ^ 32) :
    format_int .hex false
        (if z < 10000 then Int.tdiv z 1024 else Int.tdiv (Int.tdiv z 1024) 1024) =
      hex_digits (if z < 10000 then z.toNat / 1024 else z.toNat / 1024 / 1024) := by
  have e1 := tdiv_floor (show 0 ≤ z by omega)
  have e2 : Int.tdiv (Int.tdiv z 1024) 1024 = ((z.toNat / 1024 / 1024 : Nat) : Int) := by
    rw [e1, tdiv_floor (by omega)]
    congr 1
  norm_num at h2
  split_ifs
  · rw [e1, format_hex_plain (by omega) (by norm_num; omega), Int.toNat_ofNat]
  · rw [e2, format_hex_plain (by omega) (by norm_num; omega), Int.toNat_ofNat]

/-- C12, amended: for every reported region, the text emitted by
`dump_frba_layout` has as its first line `-------------- 0x` followed by the
hexadecimal digits of `base` when `base` is not 0, and `-------------- 0` when
`base` is 0; as its third line `-------------- 0x` followed by the hexadecimal
digits of `limit`; in between the line `<short_name> = <size><unit>` (the size
value in hexadecimal digits); and one blank line after the region.  The text of
the report is the sequence of these blocks in the order of the rows. -/
theorem report_text (bios_image : List UInt8) (frba : Nat) (rows : List region_t)
    (cout : ostream) (h : dump_frba_layout bios_image frba = .ok rows) :
    ∃ os : ostream, dump_frba_layout_cout bios_image frba cout = .ok os ∧
      os.text = cout.text ++ String.join (rows.map (fun var =>
        (if var.base = 0 then "-------------- 0"
          else "-------------- 0x" ++ hex_digits var.base.toNat) ++ "\n"
        ++ var.name ++ " = "
        ++ (hex_digits
              (if var.size < 10000 then var.size.toNat / 1024
                else var.size.toNat / 1024 / 1024)
            ++ (if var.size < 10000 then "Kb" else "MB")) ++ "\n"
        ++ ("-------------- 0x" ++ hex_digits var.limit.toNat) ++ "\n" ++ "\n")) := by
  refine ⟨print_regions rows cout, ?_, ?_⟩
  · unfold dump_frba_layout_cout
    rw [h]
  · apply loop_text print_region print_regions (fun _ => rfl) (fun _ _ _ => rfl)
    intro var hv c
    obtain ⟨hb0, hb1, hl0, hl1, -, hs1⟩ := reported_bounds h hv
    have h1 := dump_frba_layout_size h var hv
    have hbody : (print_region var c).text = c.text ++
        (("-------------- " ++ format_int .hex true var.base) ++ "\n"
          ++ var.name ++ " = "
          ++ (format_int .hex false
                (if var.size < 10000 then Int.tdiv var.size 1024
                  else Int.tdiv (Int.tdiv var.size 1024) 1024)
              ++ (if var.size < 10000 then "Kb" else "MB")) ++ "\n"
          ++ ("-------------- " ++ format_int .hex true var.limit) ++ "\n" ++ "\n") := by
      unfold print_region
      by_cases hlt : var.size < 10000
      · simp only [hlt, if_true, put_str, put_int, hex, showbase, noshowbase, endl,
          String.append_assoc, ← str_rule]
      · simp only [hlt, if_false, put_str, put_int, hex, showbase, noshowbase, endl,
          String.append_assoc, ← str_rule]
    rw [hbody, base_text_eq hb0 hb1, limit_text_eq hl0 hl1,
      size_value_hex h1 (by norm_num; omega)]

theorem report_text_witness :
    dump_frba_layout sample_image 32 =
      .ok [⟨0, 8191, 8192, "EC"⟩, ⟨0, 4095, 4096, "FD"⟩, ⟨4096, 65535, 61440, "ME"⟩,
        ⟨65536, 1048575, 983040, "BIOS"⟩] ∧
    (∃ os : ostream, dump_frba_layout_cout sample_image 32 cout_initial = .ok os ∧
      os.text =
        "-------------- 0\nEC = 8Kb\n-------------- 0x1fff\n\n" ++
        "-------------- 0\nFD = 4Kb\n-------------- 0xfff\n\n" ++
        "-------------- 0x1000\nME = 0MB\n-------------- 0xffff\n\n" ++
        "-------------- 0x10000\nBIOS = 0MB\n-------------- 0xfffff\n\n") ∧
    dump_frba_layout_cout sample_image 32 cout_initial =
      .ok ⟨.hex, true,
        "-------------- 0\nEC = 8Kb\n-------------- 0x1fff\n\n" ++
        "-------------- 0\nFD = 4Kb\n-------------- 0xfff\n\n" ++
        "-------------- 0x1000\nME = 0MB\n-------------- 0xffff\n\n" ++
        "-------------- 0x10000\nBIOS = 0MB\n-------------- 0xfffff\n\n"⟩ :=
  have hrows : dump_frba_layout sample_image 32 =
      .ok [⟨0, 8191, 8192, "EC"⟩, ⟨0, 4095, 4096, "FD"⟩, ⟨4096, 65535, 61440, "ME"⟩,
        ⟨65536, 1048575, 983040, "BIOS"⟩] := by decide
  ⟨hrows,
    (report_text sample_image 32 _ cout_initial hrows).elim
      (fun os hos => ⟨os, hos.1, hos.2.trans (by decide)⟩),
    by decide⟩

/-- The size value and unit printed for a size that is 4096, 8192 or at least
12288. -/
theorem size_text_cases {z : Int} (hz : z = 4096 ∨ z = 8192 ∨ 12288 ≤ z) (h2 : z < 2 ^ 32) :
    format_int .hex false
        (if z < 10000 then Int.tdiv z 1024 else Int.tdiv (Int.tdiv z 1024) 1024)
      ++ (if z < 10000 then "Kb" else "MB") =
    (if z = 4096 then "4Kb"
      else if z = 8192 then "8Kb"
      else if z < 1048576 then "0MB"
      else hex_digits (z.toNat / 1024 / 1024) ++ "MB") := by
  rw [size_value_hex (by omega) h2]
  rcases hz with h4 | h8 | h12
  · subst h4; decide
  · subst h8; decide
  · rw [if_neg (by omega), if_neg (by omega), if_neg (by omega), if_neg (by omega)]
    split_ifs with hmb
    · rw [show z.toNat / 1024 / 1024 = 0 by omega]
      decide
    · rfl

/-- C18: for every reported region, the unit Kb is used only when the size is 4096
or 8192 (displayed values 4 and 8); every reported region with
`12288 <= size < 1048576` bytes is displayed with unit MB and size value 0.  In
the text written by `dump_frba_layout` the size of a row reads `4Kb` for size
4096, `8Kb` for size 8192, `0MB` for every other size below 1048576, and the
digits of `size / 1024 / 1024` followed by `MB` from there on. -/
theorem kb_only_for_two_sizes (bios_image : List UInt8) (frba : Nat) (rows : List region_t)
    (cout : ostream) (h : dump_frba_layout bios_image frba = .ok rows) :
    (∃ os : ostream, dump_frba_layout_cout bios_image frba cout = .ok os ∧
      os.text = cout.text ++ String.join (rows.map (fun var =>
        ("-------------- " ++ format_int .hex true var.base) ++ "\n"
        ++ var.name ++ " = "
        ++ (if var.size = 4096 then "4Kb"
            else if var.size = 8192 then "8Kb"
            else if var.size < 1048576 then "0MB"
            else hex_digits (var.size.toNat / 1024 / 1024) ++ "MB") ++ "\n"
        ++ ("-------------- " ++ format_int .hex true var.limit) ++ "\n" ++ "\n"))) ∧
    ∀ var ∈ rows,
      (var.size < 10000 ↔ var.size = 4096 ∨ var.size = 8192) ∧
      (var.size = 4096 ∨ var.size = 8192 ∨ 12288 ≤ var.size) ∧
      ((size_field var).2 = "Kb" →
        (var.size = 4096 ∧ (size_field var).1 = 4) ∨
        (var.size = 8192 ∧ (size_field var).1 = 8)) ∧
      (12288 ≤ var.size → var.size < 1048576 → size_field var = (0, "MB")) := by
  refine ⟨⟨print_regions rows cout, ?_, ?_⟩, ?_⟩
  · unfold dump_frba_layout_cout
    rw [h]
  · apply loop_text print_region print_regions (fun _ => rfl) (fun _ _ _ => rfl)
    intro var hv c
    obtain ⟨-, -, -, -, hsz, hs1⟩ := reported_bounds h hv
    have hbody : (print_region var c).text = c.text ++
        (("-------------- " ++ format_int .hex true var.base) ++ "\n"
          ++ var.name ++ " = "
          ++ (format_int .hex false
                (if var.size < 10000 then Int.tdiv var.size 1024
                  else Int.tdiv (Int.tdiv var.size 1024) 1024)
              ++ (if var.size < 10000 then "Kb" else "MB")) ++ "\n"
          ++ ("-------------- " ++ format_int .hex true var.limit) ++ "\n" ++ "\n") := by
      unfold print_region
      by_cases hlt : var.size < 10000
      · simp only [hlt, if_true, put_str, put_int, hex, showbase, noshowbase, endl,
          String.append_assoc, ← str_rule]
      · simp only [hlt, if_false, put_str, put_int, hex, showbase, noshowbase, endl,
          String.append_assoc, ← str_rule]
    rw [hbody, size_text_cases hsz (by norm_num; omega)]
  · intro var hv
    obtain ⟨-, -, -, -, hsz, -⟩ := reported_bounds h hv
    have hsf : size_field var =
        (if var.size < 10000 then Int.tdiv var.size 1024
          else Int.tdiv (Int.tdiv var.size 1024) 1024,
         if var.size < 10000 then "Kb" else "MB") := by
      unfold size_field
      split_ifs <;> rfl
    refine ⟨by omega, hsz, ?_, ?_⟩
    · intro hu
      rcases hsz with h4 | h8 | h12
      · left; rw [hsf, h4]; exact ⟨rfl, by decide⟩
      · right; rw [hsf, h8]; exact ⟨rfl, by decide⟩
      · rw [hsf] at hu
        simp only [if_neg (show ¬ var.size < 10000 by omega)] at hu
        exact absurd hu (by decide)
    · intro h12 hmb
      rw [hsf, if_neg (show ¬ var.size < 10000 by omega),
        if_neg (show ¬ var.size < 10000 by omega)]
      have e1 := tdiv_floor (show 0 ≤ var.size by omega)
      have e2 : Int.tdiv (Int.tdiv var.size 1024) 1024 = 0 := by
        rw [e1, tdiv_floor (by omega)]
        omega
      rw [e2]

theorem kb_only_for_two_sizes_witness :
    dump_frba_layout sample_image 32 =
      .ok [⟨0, 8191, 8192, "EC"⟩, ⟨0, 4095, 4096, "FD"⟩, ⟨4096, 65535, 61440, "ME"⟩,
        ⟨65536, 1048575, 983040, "BIOS"⟩] ∧
    (∃ os : ostream, dump_frba_layout_cout sample_image 32 cout_initial = .ok os ∧
      os.text =
        "-------------- 0\nEC = 8Kb\n-------------- 0x1fff\n\n" ++
        "-------------- 0\nFD = 4Kb\n-------------- 0xfff\n\n" ++
        "-------------- 0x1000\nME = 0MB\n-------------- 0xffff\n\n" ++
        "-------------- 0x10000\nBIOS = 0MB\n-------------- 0xfffff\n\n") ∧
    dump_frba_layout_cout sample_image 32 cout_initial =
      .ok ⟨.hex, true,
        "-------------- 0\nEC = 8Kb\n-------------- 0x1fff\n\n" ++
        "-------------- 0\nFD = 4Kb\n-------------- 0xfff\n\n" ++
        "-------------- 0x1000\nME = 0MB\n-------------- 0xffff\n\n" ++
        "-------------- 0x10000\nBIOS = 0MB\n-------------- 0xfffff\n\n"⟩ ∧
    size_field ⟨4096, 65535, 61440, "ME"⟩ = (0, "MB") :=
  have hrows : dump_frba_layout sample_image 32 =
      .ok [⟨0, 8191, 8192, "EC"⟩, ⟨0, 4095, 4096, "FD"⟩, ⟨4096, 65535, 61440, "ME"⟩,
        ⟨65536, 1048575, 983040, "BIOS"⟩] := by decide
  have hthm := kb_only_for_two_sizes sample_image 32 _ cout_initial hrows
  ⟨hrows,
    hthm.1.elim (fun os hos => ⟨os, hos.1, hos.2.trans (by decide)⟩),
    by decide,
    (hthm.2 ⟨4096, 65535, 61440, "ME"⟩ (by decide)).2.2.2 (by decide) (by decide)⟩

/-- C19: in the text emitted by `dump_frba_layout` the size value of every
reported region is written in hexadecimal without a mark of the base: the flag
`hex` set when the base was printed is still in effect, whatever the flags of
the stream were before the call.  A region whose size value is `n` is printed
with the base-16 digits of `n` (a region of 16 MB as `10MB`), and these equal the
decimal rendering of `n` only when `n < 10`. -/
theorem size_printed_in_hex (bios_image : List UInt8) (frba : Nat) (rows : List region_t)
    (cout : ostream) (h : dump_frba_layout bios_image frba = .ok rows) :
    (∃ os : ostream, dump_frba_layout_cout bios_image frba cout = .ok os ∧
      os.text = cout.text ++ String.join (rows.map (fun var =>
        ("-------------- " ++ format_int .hex true var.base) ++ "\n"
        ++ var.name ++ " = "
        ++ (hex_digits
              (if var.size < 10000 then var.size.toNat / 1024
                else var.size.toNat / 1024 / 1024)
            ++ (if var.size < 10000 then "Kb" else "MB")) ++ "\n"
        ++ ("-------------- " ++ format_int .hex true var.limit) ++ "\n" ++ "\n"))) ∧
    ∀ var ∈ rows, ∃ n : Nat,
      n = (if var.size < 10000 then var.size.toNat / 1024
            else var.size.toNat / 1024 / 1024) ∧
      (size_field var).1 = (n : Int) ∧ n ≤ 128 ∧
      format_int .hex false (n : Int) = hex_digits n ∧
      format_int .dec false (n : Int) = dec_digits n ∧
      (format_int .hex false (n : Int) = format_int .dec false (n : Int) ↔ n < 10) ∧
      (var.size = 16 * 1024 * 1024 →
        hex_digits n ++ (if var.size < 10000 then "Kb" else "MB") = "10MB") := by
  refine ⟨⟨print_regions rows cout, ?_, ?_⟩, ?_⟩
  · unfold dump_frba_layout_cout
    rw [h]
  · apply loop_text print_region print_regions (fun _ => rfl) (fun _ _ _ => rfl)
    intro var hv c
    obtain ⟨-, -, -, -, -, hs1⟩ := reported_bounds h hv
    have h1 := dump_frba_layout_size h var hv
    have hbody : (print_region var c).text = c.text ++
        (("-------------- " ++ format_int .hex true var.base) ++ "\n"
          ++ var.name ++ " = "
          ++ (format_int .hex false
                (if var.size < 10000 then Int.tdiv var.size 1024
                  else Int.tdiv (Int.tdiv var.size 1024) 1024)
              ++ (if var.size < 10000 then "Kb" else "MB")) ++ "\n"
          ++ ("-------------- " ++ format_int .hex true var.limit) ++ "\n" ++ "\n") := by
      unfold print_region
      by_cases hlt : var.size < 10000
      · simp only [hlt, if_true, put_str, put_int, hex, showbase, noshowbase, endl,
          String.append_assoc, ← str_rule]
      · simp only [hlt, if_false, put_str, put_int, hex, showbase, noshowbase, endl,
          String.append_assoc, ← str_rule]
    rw [hbody, size_value_hex h1 (by norm_num; omega)]
  · intro var hv
    obtain ⟨-, -, -, -, hsz, hs1⟩ := reported_bounds h hv
    have e1 := tdiv_floor (show 0 ≤ var.size by omega)
    have e2 : Int.tdiv (Int.tdiv var.size 1024) 1024
        = ((var.size.toNat / 1024 / 1024 : Nat) : Int) := by
      rw [e1, tdiv_floor (by omega)]
      congr 1
    have hfield : (size_field var).1 =
        ((if var.size < 10000 then var.size.toNat / 1024
          else var.size.toNat / 1024 / 1024 : Nat) : Int) := by
      unfold size_field
      split_ifs
      · exact e1
      · exact e2
    have hle : (if var.size < 10000 then var.size.toNat / 1024
        else var.size.toNat / 1024 / 1024) ≤ 128 := by
      split_ifs <;> omega
    have hhex : ∀ n : Nat, n ≤ 128 → format_int .hex false (n : Int) = hex_digits n := by
      intro n hn
      rw [format_hex_plain (by omega) (by norm_num; omega), Int.toNat_ofNat]
    have hdec : ∀ n : Nat, format_int .dec false (n : Int) = dec_digits n := by
      intro n
      unfold format_int
      simp only [show ¬ ((n : Nat) : Int) < 0 by omega, if_false, Int.toNat_ofNat]
    refine ⟨_, rfl, hfield, hle, hhex _ hle, hdec _, ?_, ?_⟩
    · rw [hhex _ hle, hdec]
      exact hex_dec_small _ (by omega)
    · intro h16
      rw [if_neg (show ¬ var.size < 10000 by omega), if_neg (show ¬ var.size < 10000 by omega),
        show var.size.toNat / 1024 / 1024 = 16 by omega]
      decide

theorem size_printed_in_hex_witness :
    dump_frba_layout sixteen_mb_image 16 = .ok [⟨0, 0xFFFFFF, 0x1000000, "BIOS"⟩] ∧
    (∃ os : ostream, dump_frba_layout_cout sixteen_mb_image 16 cout_initial = .ok os ∧
      os.text = "-------------- 0\nBIOS = 10MB\n-------------- 0xffffff\n\n") ∧
    dump_frba_layout_cout sixteen_mb_image 16 cout_initial =
      .ok ⟨.hex, true, "-------------- 0\nBIOS = 10MB\n-------------- 0xffffff\n\n"⟩ ∧
    (∃ n : Nat, n = 16 ∧ format_int .hex false (n : Int) = hex_digits n ∧
      format_int .dec false (n : Int) = dec_digits n ∧
      (format_int .hex false (n : Int) = format_int .dec false (n : Int) ↔ n < 10)) :=
  have hrows : dump_frba_layout sixteen_mb_image 16 =
      .ok [⟨0, 0xFFFFFF, 0x1000000, "BIOS"⟩] := by decide
  have hthm := size_printed_in_hex sixteen_mb_image 16 _ cout_initial hrows
  ⟨hrows,
    hthm.1.elim (fun os hos => ⟨os, hos.1, hos.2.trans (by decide)⟩),
    by decide,
    (hthm.2 ⟨0, 0xFFFFFF, 0x1000000, "BIOS"⟩ (by decide)).elim
      (fun n hn => ⟨n, hn.1.trans (by decide), hn.2.2.2.1, hn.2.2.2.2.1, hn.2.2.2.2.2.1⟩)⟩

end Ifd
